import Mathlib

/-!
Verification development for the GoApp engine (`src/goapp.py`).

The Python engine is embedded shallowly: the stone layout is a colour
function on coordinates, the recursive flood fills (`Point._string_recursion`,
`Point._region_recursion`) are rendered as bounded monotone iterations whose
results are proved equal to graph reachability, and every stateful routine
whose internal mutation is call-local (the `active` visitation mask is always
restored before a routine returns) becomes a pure function of the layout.
Fallible operations (`Board.move`, `Board.erase`) return `Except`, so a
failure leaves the source board untouched by construction.
-/

namespace GoApp

/-- Colour constants, as in the Python source. -/
def EMPTY : Int := 0

def BLACK : Int := 1

def WHITE : Int := -BLACK

/-- A grid coordinate `(row, column)`. -/
abbrev Pos := Nat × Nat

/-- The stone layout: dimensions plus a colour for every coordinate
(`Grid` in the source; only in-bounds coordinates are meaningful). -/
structure Grid where
  m : Nat
  n : Nat
  colour : Pos → Int

/-- Row-major list of the in-bounds coordinates (the iteration order of
`Grid.__iter__`). -/
def Grid.allPos (g : Grid) : List Pos :=
  (List.range g.m).flatMap (fun i => (List.range g.n).map (fun j => (i, j)))

/-- The in-bounds coordinates as a finite set. -/
def Grid.posFinset (g : Grid) : Finset Pos :=
  g.allPos.toFinset

/-- The neighbour list of a point, in the construction order of
`Grid.__init__`: up, left, down, right, clipped to the board. -/
def Grid.adjList (g : Grid) : Pos → List Pos :=
  fun (i, j) =>
    (if 0 < i ∧ i - 1 < g.m ∧ j < g.n then [(i - 1, j)] else []) ++
    (if 0 < j ∧ i < g.m ∧ j - 1 < g.n then [(i, j - 1)] else []) ++
    (if i + 1 < g.m ∧ j < g.n then [(i + 1, j)] else []) ++
    (if j + 1 < g.n ∧ i < g.m then [(i, j + 1)] else [])

/-- Overwrite the colour of one point. -/
def Grid.setColour (g : Grid) (p : Pos) (c : Int) : Grid :=
  ⟨g.m, g.n, fun q => if q = p then c else g.colour q⟩

/-- Empty every point of a set at once (used to state what a capture does). -/
def Grid.emptyOn (g : Grid) (E : Finset Pos) : Grid :=
  ⟨g.m, g.n, fun q => if q ∈ E then EMPTY else g.colour q⟩

/-- The row-major colour list (`[point.colour for point in self]`), the
data compared by `Grid.__eq__`. -/
def Grid.layout (g : Grid) : List Int :=
  g.allPos.map g.colour

section Lemmas

variable {g : Grid}

theorem Grid.mem_allPos {p : Pos} :
    p ∈ g.allPos ↔ p.1 < g.m ∧ p.2 < g.n := by
  obtain ⟨i, j⟩ := p
  simp [Grid.allPos]

theorem Grid.mem_posFinset {p : Pos} :
    p ∈ g.posFinset ↔ p.1 < g.m ∧ p.2 < g.n := by
  simp [Grid.posFinset, Grid.mem_allPos]

theorem Grid.mem_adjList_posFinset {p q : Pos} (hq : q ∈ g.adjList p) :
    q ∈ g.posFinset := by
  obtain ⟨i, j⟩ := p
  rw [Grid.mem_posFinset]
  simp only [Grid.adjList, List.mem_append] at hq
  rcases hq with ((h | h) | h) | h <;>
    [skip; skip; skip; skip] <;>
  · split at h <;> simp_all

/-- Adjacency is symmetric between in-bounds points. -/
theorem Grid.adjList_symm {p q : Pos} (hp : p ∈ g.posFinset)
    (hq : q ∈ g.adjList p) : p ∈ g.adjList q := by
  obtain ⟨i, j⟩ := p
  obtain ⟨a, b⟩ := q
  rw [Grid.mem_posFinset] at hp
  simp only [Grid.adjList, List.mem_append] at hq ⊢
  rcases hq with ((h | h) | h) | h <;>
  · split at h <;> simp_all [Prod.ext_iff] <;> omega

end Lemmas

/-! ## Flood fill as monotone iteration

`Point._string_recursion` / `_region_recursion` compute the maximal
connected set of points satisfying a predicate around a start point.
We realise this with a monotone step iterated `|posFinset|` times and prove
the result equal to reachability. -/

section Component

variable (g : Grid)

/-- One expansion step: add every in-bounds point satisfying `P` adjacent
to the current set. -/
def compStep (P : Pos → Bool) (S : Finset Pos) : Finset Pos :=
  S ∪ g.posFinset.filter (fun q => P q ∧ ∃ r ∈ S, q ∈ g.adjList r)

/-- The connected component of `p` among points satisfying `P`
(the point set computed by the recursive flood fills). -/
def component (P : Pos → Bool) (p : Pos) : Finset Pos :=
  (compStep g P)^[g.posFinset.card] {p}

/-- One step of connectivity: `q` is a neighbour of `p` and satisfies `P`. -/
def Adj (P : Pos → Bool) (p q : Pos) : Prop :=
  q ∈ g.adjList p ∧ P q = true

/-- Graph reachability from `p` through points satisfying `P`:
the declarative meaning of the flood fill. -/
def Reach (P : Pos → Bool) (p q : Pos) : Prop :=
  Relation.ReflTransGen (Adj g P) p q

variable {g}

theorem compStep_subset {P : Pos → Bool} {S : Finset Pos} :
    S ⊆ compStep g P S :=
  Finset.subset_union_left

theorem compStep_mono {P : Pos → Bool} {S T : Finset Pos} (h : S ⊆ T) :
    compStep g P S ⊆ compStep g P T := by
  intro q hq
  simp only [compStep, Finset.mem_union, Finset.mem_filter] at hq ⊢
  rcases hq with hq | ⟨hq, hP, r, hr, hadj⟩
  · exact Or.inl (h hq)
  · exact Or.inr ⟨hq, hP, r, h hr, hadj⟩

theorem compStep_subset_posFinset {P : Pos → Bool} {S : Finset Pos}
    (h : S ⊆ g.posFinset) : compStep g P S ⊆ g.posFinset := by
  intro q hq
  simp only [compStep, Finset.mem_union, Finset.mem_filter] at hq
  rcases hq with hq | ⟨hq, _⟩
  · exact h hq
  · exact hq

theorem iterate_compStep_subset_posFinset {P : Pos → Bool} {p : Pos}
    (hp : p ∈ g.posFinset) (k : Nat) :
    (compStep g P)^[k] {p} ⊆ g.posFinset := by
  induction k with
  | zero => simpa using hp
  | succ k ih =>
    rw [Function.iterate_succ_apply']
    exact compStep_subset_posFinset ih

theorem iterate_compStep_mono_in_steps {P : Pos → Bool} {p : Pos} {k l : Nat}
    (h : k ≤ l) : (compStep g P)^[k] {p} ⊆ (compStep g P)^[l] {p} := by
  induction l with
  | zero => simp [Nat.le_zero.mp h]
  | succ l ih =>
    rcases Nat.lt_or_ge k (l + 1) with hk | hk
    · have := ih (Nat.lt_succ_iff.mp hk)
      rw [Function.iterate_succ_apply']
      exact this.trans compStep_subset
    · have : k = l + 1 := Nat.le_antisymm h hk
      subst this
      exact subset_rfl

/-- If a step makes no progress, all later iterates agree. -/
theorem iterate_of_fixed {P : Pos → Bool} {S : Finset Pos}
    (h : compStep g P S = S) (k : Nat) : (compStep g P)^[k] S = S := by
  induction k with
  | zero => rfl
  | succ k ih => rw [Function.iterate_succ_apply, h, ih]

/-- After `|posFinset|` steps the iteration has reached a fixed point. -/
theorem component_fixed {P : Pos → Bool} {p : Pos} (hp : p ∈ g.posFinset) :
    compStep g P (component g P p) = component g P p := by
  by_contra hne
  -- if no step in the chain is a fixed point, cardinality grows every step
  have grow : ∀ k, k ≤ g.posFinset.card →
      k + 1 ≤ ((compStep g P)^[k] {p}).card := by
    intro k hk
    induction k with
    | zero => simp
    | succ k ih =>
      have hklt : k ≤ g.posFinset.card := Nat.le_of_succ_le hk
      have hcard := ih hklt
      have hstep : (compStep g P)^[k] {p} ≠ (compStep g P)^[k + 1] {p} := by
        intro heq
        apply hne
        have hfix : compStep g P ((compStep g P)^[k] {p}) = (compStep g P)^[k] {p} := by
          have h' := Function.iterate_succ_apply' (compStep g P) k ({p} : Finset Pos)
          rw [← h']
          exact heq.symm
        have h1 : component g P p = (compStep g P)^[k] {p} := by
          unfold component
          have hsplit : g.posFinset.card = (g.posFinset.card - k) + k := by omega
          rw [hsplit, Function.iterate_add_apply]
          exact iterate_of_fixed hfix _
        rw [h1]
        exact hfix
      have hsub : (compStep g P)^[k] {p} ⊆ (compStep g P)^[k + 1] {p} := by
        rw [Function.iterate_succ_apply']
        exact compStep_subset
      have hlt : ((compStep g P)^[k] {p}).card < ((compStep g P)^[k + 1] {p}).card :=
        Finset.card_lt_card (Finset.ssubset_iff_subset_ne.mpr ⟨hsub, hstep⟩)
      omega
  have hbig := grow g.posFinset.card le_rfl
  have hsmall : ((compStep g P)^[g.posFinset.card] {p}).card ≤ g.posFinset.card :=
    Finset.card_le_card (iterate_compStep_subset_posFinset hp _)
  omega

/-- Soundness: everything in the component is reachable. -/
theorem mem_component_reach {P : Pos → Bool} {p q : Pos}
    (hq : q ∈ component g P p) : Reach g P p q := by
  suffices h : ∀ k, ∀ q ∈ (compStep g P)^[k] ({p} : Finset Pos), Reach g P p q from
    h _ q hq
  intro k
  induction k with
  | zero =>
    intro q hq
    simp only [Function.iterate_zero_apply, Finset.mem_singleton] at hq
    subst hq
    exact Relation.ReflTransGen.refl
  | succ k ih =>
    intro q hq
    have h' := Function.iterate_succ_apply' (compStep g P) k ({p} : Finset Pos)
    rw [h'] at hq
    simp only [compStep, Finset.mem_union, Finset.mem_filter] at hq
    rcases hq with hq | ⟨_, hP, r, hr, hadj⟩
    · exact ih q hq
    · exact Relation.ReflTransGen.tail (ih r hr) ⟨hadj, hP⟩

/-- Completeness: everything reachable is in the component. -/
theorem reach_mem_component {P : Pos → Bool} {p q : Pos}
    (hp : p ∈ g.posFinset) (hq : Reach g P p q) : q ∈ component g P p := by
  induction hq with
  | refl =>
    have : p ∈ ({p} : Finset Pos) := Finset.mem_singleton_self p
    exact iterate_compStep_mono_in_steps (Nat.zero_le _) this
  | tail hr hstep ih =>
    rename_i b c
    obtain ⟨hadj, hP⟩ := hstep
    have hc : c ∈ compStep g P (component g P p) := by
      simp only [compStep, Finset.mem_union, Finset.mem_filter]
      exact Or.inr ⟨g.mem_adjList_posFinset hadj, hP, b, ih, hadj⟩
    rwa [component_fixed hp] at hc

/-- The flood-fill component is exactly the set of reachable points. -/
theorem mem_component_iff {P : Pos → Bool} {p q : Pos} (hp : p ∈ g.posFinset) :
    q ∈ component g P p ↔ Reach g P p q :=
  ⟨mem_component_reach, reach_mem_component hp⟩

theorem self_mem_component {P : Pos → Bool} {p : Pos} (hp : p ∈ g.posFinset) :
    p ∈ component g P p :=
  reach_mem_component hp Relation.ReflTransGen.refl

theorem component_subset_posFinset {P : Pos → Bool} {p : Pos}
    (hp : p ∈ g.posFinset) : component g P p ⊆ g.posFinset :=
  iterate_compStep_subset_posFinset hp _

/-- Every point of a component satisfies `P` or is the start point. -/
theorem mem_component_prop {P : Pos → Bool} {p q : Pos}
    (hq : q ∈ component g P p) : q = p ∨ P q = true := by
  have h := mem_component_reach hq
  induction h with
  | refl => exact Or.inl rfl
  | tail _ hstep _ => exact Or.inr hstep.2

/-- Reachability stays inside the board when the start is in bounds. -/
theorem reach_mem_posFinset {P : Pos → Bool} {p q : Pos} (hp : p ∈ g.posFinset)
    (h : Reach g P p q) : q ∈ g.posFinset := by
  induction h with
  | refl => exact hp
  | tail _ hstep _ => exact g.mem_adjList_posFinset hstep.1

/-- Reachability within a `P`-component is symmetric provided the start
satisfies `P`. -/
theorem reach_symm {P : Pos → Bool} {p q : Pos} (hp : p ∈ g.posFinset)
    (hPp : P p = true) (h : Reach g P p q) : Reach g P q p := by
  induction h with
  | refl => exact Relation.ReflTransGen.refl
  | tail hr hstep ih =>
    rename_i b c
    obtain ⟨hadj, _⟩ := hstep
    have hb : b ∈ g.posFinset := reach_mem_posFinset hp hr
    have hPb : P b = true := by
      rcases mem_component_prop (reach_mem_component hp hr) with hb2 | hb2
      · rwa [hb2]
      · exact hb2
    exact Relation.ReflTransGen.head ⟨g.adjList_symm hb hadj, hPb⟩ ih

end Component

/-! ## Strings, regions, liberties -/

/-- The maximal same-colour string through `p`
(`Point.find_string()` with the default `region = EMPTY`). -/
def stringOf (g : Grid) (p : Pos) : Finset Pos :=
  component g (fun q => decide (g.colour q = g.colour p)) p

/-- The liberties of a point set: the distinct empty in-bounds points
adjacent to it (the `liberties` list collected by `_string_recursion`,
whose `active` mask guarantees each liberty is counted once). -/
def libertiesOf (g : Grid) (S : Finset Pos) : Finset Pos :=
  g.posFinset.filter (fun q => g.colour q = EMPTY ∧ ∃ r ∈ S, q ∈ g.adjList r)

/-- The maximal region through `p` enclosed by `player`
(`Point.find_string(player)`): the connected non-`player` points. -/
def regionOf (g : Grid) (player : Int) (p : Pos) : Finset Pos :=
  component g (fun q => decide (g.colour q ≠ player)) p

/-- The empty points of a region (its `liberties` list in
`_region_recursion`). -/
def regionEmpties (g : Grid) (R : Finset Pos) : Finset Pos :=
  R.filter (fun q => g.colour q = EMPTY)

/-- `_region_recursion` marks a region alive ("small") iff each of its
empty points has a `player`-coloured neighbour. -/
def regionSmall (g : Grid) (player : Int) (R : Finset Pos) : Bool :=
  decide (∀ e ∈ regionEmpties g R, ∃ nb ∈ g.adjList e, g.colour nb = player)

section StringLemmas

variable {g : Grid}

theorem regionSmall_iff {player : Int} {R : Finset Pos} :
    regionSmall g player R = true ↔
      ∀ e ∈ regionEmpties g R, ∃ nb ∈ g.adjList e, g.colour nb = player := by
  simp [regionSmall]

theorem mem_stringOf_colour {p x : Pos} (hx : x ∈ stringOf g p) :
    g.colour x = g.colour p := by
  rcases mem_component_prop hx with h | h
  · rw [h]
  · exact of_decide_eq_true h

theorem self_mem_stringOf {p : Pos} (hp : p ∈ g.posFinset) :
    p ∈ stringOf g p :=
  self_mem_component hp

theorem stringOf_subset_posFinset {p : Pos} (hp : p ∈ g.posFinset) :
    stringOf g p ⊆ g.posFinset :=
  component_subset_posFinset hp

/-- Membership transfers: the string of a member is the whole string. -/
theorem stringOf_eq_of_mem {p x : Pos} (hp : p ∈ g.posFinset)
    (hx : x ∈ stringOf g p) : stringOf g x = stringOf g p := by
  have hcol : g.colour x = g.colour p := mem_stringOf_colour hx
  have hx' : x ∈ g.posFinset := stringOf_subset_posFinset hp hx
  have hpred : (fun q => decide (g.colour q = g.colour x)) =
      (fun q => decide (g.colour q = g.colour p)) := by
    funext q; rw [hcol]
  have hreach : Reach g (fun q => decide (g.colour q = g.colour p)) p x :=
    mem_component_reach hx
  have hback : Reach g (fun q => decide (g.colour q = g.colour p)) x p :=
    reach_symm hp (by simp) hreach
  unfold stringOf
  rw [hpred]
  ext y
  rw [mem_component_iff hx', mem_component_iff hp]
  constructor
  · intro h; exact hreach.trans h
  · intro h; exact hback.trans h

/-- A set closed under colour-`c` adjacency (a union of `c`-strings). -/
def Saturated (g : Grid) (c : Int) (E : Finset Pos) : Prop :=
  (∀ a ∈ E, g.colour a = c ∧ a ∈ g.posFinset) ∧
  ∀ a ∈ E, ∀ b, b ∈ g.adjList a → g.colour b = c → b ∈ E

theorem stringOf_saturated {p : Pos} {c : Int} (hp : p ∈ g.posFinset)
    (hc : g.colour p = c) : Saturated g c (stringOf g p) := by
  constructor
  · intro a ha
    exact ⟨(mem_stringOf_colour ha).trans hc, stringOf_subset_posFinset hp ha⟩
  · intro a ha b hb hbc
    have hr : Reach g (fun q => decide (g.colour q = g.colour p)) p a :=
      mem_component_reach ha
    have : Reach g (fun q => decide (g.colour q = g.colour p)) p b :=
      Relation.ReflTransGen.tail hr ⟨hb, by simp [hbc, hc]⟩
    exact reach_mem_component hp this

/-- Paths of colour `c` starting outside a `c`-saturated set never enter it. -/
theorem reach_not_mem_saturated {c : Int} {E : Finset Pos}
    (hE : Saturated g c E) {q x : Pos} (hq : q ∈ g.posFinset)
    (hqc : g.colour q = c) (hqE : q ∉ E)
    (h : Reach g (fun y => decide (g.colour y = c)) q x) : x ∉ E := by
  induction h with
  | refl => exact hqE
  | tail hr hstep ih =>
    rename_i b y
    intro hyE
    have hb : b ∈ g.posFinset := reach_mem_posFinset hq hr
    have hbc : g.colour b = c := by
      rcases mem_component_prop (reach_mem_component hq hr) with h' | h'
      · rw [h', hqc]
      · exact of_decide_eq_true h'
    have : b ∈ E := hE.2 y hyE b (g.adjList_symm hb hstep.1) hbc
    exact ih this

/-- Emptying a `c`-saturated set does not disturb `c`-reachability from a
point outside it. -/
theorem reach_emptyOn_iff {c : Int} (hc : c ≠ EMPTY) {E : Finset Pos}
    (hE : Saturated g c E) {q x : Pos} (hq : q ∈ g.posFinset)
    (hqc : g.colour q = c) (hqE : q ∉ E) :
    Reach (g.emptyOn E) (fun y => decide ((g.emptyOn E).colour y = c)) q x ↔
      Reach g (fun y => decide (g.colour y = c)) q x := by
  constructor
  · intro h
    induction h with
    | refl => exact Relation.ReflTransGen.refl
    | tail hr hstep ih =>
      rename_i b y
      have hy : (g.emptyOn E).colour y = c := of_decide_eq_true hstep.2
      have hyE : y ∉ E := by
        intro hmem
        simp only [Grid.emptyOn, hmem, if_pos] at hy
        exact hc hy.symm
      have hycol : g.colour y = c := by
        simpa [Grid.emptyOn, hyE] using hy
      exact Relation.ReflTransGen.tail ih ⟨hstep.1, by simp [hycol]⟩
  · intro h
    induction h with
    | refl => exact Relation.ReflTransGen.refl
    | tail hr hstep ih =>
      rename_i b y
      have hycol : g.colour y = c := of_decide_eq_true hstep.2
      have hb : b ∈ g.posFinset := reach_mem_posFinset hq hr
      have hbc : g.colour b = c := by
        rcases mem_component_prop (reach_mem_component hq hr) with h' | h'
        · rw [h', hqc]
        · exact of_decide_eq_true h'
      have hbE : b ∉ E := reach_not_mem_saturated hE hq hqc hqE hr
      have hyE : y ∉ E := by
        intro hmem
        exact hbE (hE.2 y hmem b (g.adjList_symm hb hstep.1) hbc)
      exact Relation.ReflTransGen.tail ih ⟨hstep.1, by simp [Grid.emptyOn, hyE, hycol]⟩

/-- Emptying a saturated set of some colour leaves the string of any other
point of that colour unchanged. -/
theorem stringOf_emptyOn_eq {c : Int} (hc : c ≠ EMPTY) {E : Finset Pos}
    (hE : Saturated g c E) {q : Pos} (hq : q ∈ g.posFinset)
    (hqc : g.colour q = c) (hqE : q ∉ E) :
    stringOf (g.emptyOn E) q = stringOf g q := by
  have hcol : (g.emptyOn E).colour q = c := by simp [Grid.emptyOn, hqE, hqc]
  have hq' : q ∈ (g.emptyOn E).posFinset := hq
  ext x
  unfold stringOf
  rw [hcol, hqc, mem_component_iff hq', mem_component_iff hq]
  exact reach_emptyOn_iff hc hE hq hqc hqE

theorem stringOf_disjoint_saturated {c : Int} {E : Finset Pos}
    (hE : Saturated g c E) {q : Pos} (hq : q ∈ g.posFinset)
    (hqc : g.colour q = c) (hqE : q ∉ E) {x : Pos} (hx : x ∈ stringOf g q) :
    x ∉ E := by
  have := mem_component_reach hx
  rw [show (fun y => decide (g.colour y = g.colour q)) =
      (fun y => decide (g.colour y = c)) by funext y; rw [hqc]] at this
  exact reach_not_mem_saturated hE hq hqc hqE this

/-- Emptying a saturated set of some colour leaves the liberties of the
string of an outside point of that colour unchanged. -/
theorem libertiesOf_emptyOn_eq {c : Int} (hc : c ≠ EMPTY) {E : Finset Pos}
    (hE : Saturated g c E) {q : Pos} (hq : q ∈ g.posFinset)
    (hqc : g.colour q = c) (hqE : q ∉ E) :
    libertiesOf (g.emptyOn E) (stringOf g q) = libertiesOf g (stringOf g q) := by
  ext x
  simp only [libertiesOf, Finset.mem_filter]
  constructor
  · rintro ⟨hxpos, hcol, r, hr, hadj⟩
    refine ⟨hxpos, ?_, r, hr, hadj⟩
    by_cases hxE : x ∈ E
    · exfalso
      have hrE : r ∉ E := stringOf_disjoint_saturated hE hq hqc hqE hr
      have hrc : g.colour r = c := (mem_stringOf_colour hr).trans hqc
      have hrpos : r ∈ g.posFinset := stringOf_subset_posFinset hq hr
      exact hrE (hE.2 x hxE r (g.adjList_symm hrpos hadj) hrc)
    · simpa [Grid.emptyOn, hxE] using hcol
  · rintro ⟨hxpos, hcol, r, hr, hadj⟩
    have hxE : x ∉ E := by
      intro hmem
      have h1 := (hE.1 x hmem).1
      rw [hcol] at h1
      exact hc h1.symm
    exact ⟨hxpos, by simpa [Grid.emptyOn, hxE] using hcol, r, hr, hadj⟩

end StringLemmas

/-! ## Board state and its transformations -/

/-- `Board`: layout + ko point + prisoner counts + consecutive-pass
counter, plus the graded fields filled in by `grade`
(`Board.__init__` starts them empty). The lazily populated
move→child map (`children`) is used only inside `solve` and is omitted. -/
structure Board where
  grid : Grid
  ko : Option Pos
  prisB : Nat
  prisW : Nat
  passes : Nat
  territoryB : List Pos
  territoryW : List Pos
  undecided : List Pos
  scoreB : Nat
  scoreW : Nat

/-- A fresh board as built by `Board.__init__`. -/
def Board.init (grid : Grid) (ko : Option Pos) (prisB prisW passes : Nat) : Board :=
  ⟨grid, ko, prisB, prisW, passes, [], [], [], 0, 0⟩

/-- Prisoner count of a player (`self.prisoners[player]`). -/
def Board.pris (b : Board) (player : Int) : Nat :=
  if player = BLACK then b.prisB else b.prisW

/-- One iteration of the capture loop in `Board.move`: if the neighbour
holds an opponent stone whose string has no liberties, capture the string
(empty its points, credit its size, record a ko candidate when it was a
single stone). State: current grid, prisoners gained, ko candidate. -/
def captureStep (player : Int) (st : Grid × Nat × Option Pos) (nb : Pos) :
    Grid × Nat × Option Pos :=
  let g := st.1
  if g.colour nb = -player then
    let S := stringOf g nb
    if libertiesOf g S = ∅ then
      (g.emptyOn S, st.2.1 + S.card, if S.card = 1 then some nb else st.2.2)
    else st
  else st

/-- The grid right after the attempted placement, before captures
(`point.colour = player` on the copied grid). -/
def placedGrid (b : Board) (player : Int) (i j : Nat) : Grid :=
  b.grid.setColour (i, j) player

/-- The capture loop of `Board.move` (`for neighbour in point.adjacent`),
starting from the post-placement grid, zero captured stones and no ko
candidate. -/
def moveFold (b : Board) (player : Int) (i j : Nat) : Grid × Nat × Option Pos :=
  ((placedGrid b player i j).adjList (i, j)).foldl (captureStep player)
    (placedGrid b player i j, 0, none)

/-- `Board.move`: attempt to place a stone.  Occupied-target and ko
checks, then the capture loop over the (up, left, down, right) neighbour
list, then the suicide check on the placed stone's own string, then the
one-stone-one-liberty ko filter.  Failure returns `Except.error`, leaving
the source board untouched. -/
def Board.move (b : Board) (player : Int) (i j : Nat) (ignoreKo : Bool) :
    Except Unit Board :=
  if b.grid.colour (i, j) ≠ EMPTY then .error ()
  else if ¬ignoreKo ∧ b.ko = some (i, j) then .error ()
  else
    let res := moveFold b player i j
    let S := stringOf res.1 (i, j)
    if libertiesOf res.1 S = ∅ then .error ()
    else
      let ko := if res.2.2 ≠ none ∧ S.card = 1 ∧ (libertiesOf res.1 S).card = 1
        then res.2.2 else none
      .ok (Board.init res.1 ko
        (if player = BLACK then b.prisB + res.2.1 else b.prisB)
        (if player = WHITE then b.prisW + res.2.1 else b.prisW) 0)

/-- `Board.erase`: delete a stone, optionally crediting the opposing
player with one prisoner; the returned board has no ko and no passes. -/
def Board.erase (b : Board) (i j : Nat) (takePrisoner : Bool) :
    Except Unit Board :=
  if b.grid.colour (i, j) = EMPTY then .error ()
  else
    let c := b.grid.colour (i, j)
    .ok (Board.init (b.grid.setColour (i, j) EMPTY) none
      (if takePrisoner ∧ -c = BLACK then b.prisB + 1 else b.prisB)
      (if takePrisoner ∧ -c = WHITE then b.prisW + 1 else b.prisW) 0)

/-- `Board.pass_turn`: same layout and prisoners, pass counter bumped,
ko cleared (a fresh `Board` is built with the default `ko=None`). -/
def Board.passTurn (b : Board) : Board :=
  Board.init b.grid none b.prisB b.prisW (b.passes + 1)

/-! ## The capture loop, declaratively -/

/-- The neighbour `nb` triggers a capture on the post-placement grid:
it holds an opponent stone whose maximal string has an empty liberty set. -/
def capturesAt (g1 : Grid) (player : Int) (nb : Pos) : Prop :=
  g1.colour nb = -player ∧ libertiesOf g1 (stringOf g1 nb) = ∅

instance (g1 : Grid) (player : Int) (nb : Pos) :
    Decidable (capturesAt g1 player nb) := by
  unfold capturesAt; infer_instance

/-- All stones captured while processing a given neighbour list. -/
def capturedOver (g1 : Grid) (player : Int) (L : List Pos) : Finset Pos :=
  g1.posFinset.filter
    (fun q => ∃ nb ∈ L, capturesAt g1 player nb ∧ q ∈ stringOf g1 nb)

/-- The set of stones `Board.move` captures when placing at `p`: the union
of the maximal opponent strings adjacent to `p` that are left without
liberties once the stone is placed. -/
def capturedSet (g1 : Grid) (player : Int) (p : Pos) : Finset Pos :=
  capturedOver g1 player (g1.adjList p)

section CaptureLemmas

variable {g1 : Grid} {player : Int}

theorem emptyOn_emptyOn (g : Grid) (E T : Finset Pos) :
    (g.emptyOn E).emptyOn T = g.emptyOn (E ∪ T) := by
  unfold Grid.emptyOn
  simp only [Grid.mk.injEq, true_and]
  funext q
  by_cases hT : q ∈ T <;> by_cases hE : q ∈ E <;> simp [hT, hE]

theorem emptyOn_empty (g : Grid) : g.emptyOn ∅ = g := by
  unfold Grid.emptyOn
  cases g with
  | mk m n colour => simp

theorem capturedOver_nil : capturedOver g1 player [] = ∅ := by
  simp [capturedOver, Finset.filter_eq_empty_iff]

theorem mem_capturedOver {L : List Pos} {q : Pos} :
    q ∈ capturedOver g1 player L ↔ q ∈ g1.posFinset ∧
      ∃ nb ∈ L, capturesAt g1 player nb ∧ q ∈ stringOf g1 nb := by
  simp [capturedOver]

/-- `capturedOver` is a union of opponent strings, hence saturated. -/
theorem capturedOver_saturated
    {L : List Pos} (hL : ∀ nb ∈ L, nb ∈ g1.posFinset) :
    Saturated g1 (-player) (capturedOver g1 player L) := by
  constructor
  · intro a ha
    rw [mem_capturedOver] at ha
    obtain ⟨hapos, nb, hnb, hcap, hmem⟩ := ha
    exact ⟨(mem_stringOf_colour hmem).trans hcap.1, hapos⟩
  · intro a ha b hb hbc
    rw [mem_capturedOver] at ha ⊢
    obtain ⟨hapos, nb, hnb, hcap, hmem⟩ := ha
    have hnbpos : nb ∈ g1.posFinset := hL nb hnb
    have hsat := stringOf_saturated hnbpos hcap.1
    have hbmem : b ∈ stringOf g1 nb := hsat.2 a hmem b hb hbc
    exact ⟨g1.mem_adjList_posFinset hb, nb, hnb, hcap, hbmem⟩

end CaptureLemmas

section CaptureFold

variable {g1 : Grid} {player : Int}

/-- Loop invariant of the capture fold: after processing neighbour list
`L`, the grid is the post-placement grid with all stones captured so far
removed, the prisoner delta counts them, and the ko candidate records the
last single-stone capture. -/
structure CapInv (g1 : Grid) (player : Int) (L : List Pos)
    (st : Grid × Nat × Option Pos) : Prop where
  grid_eq : st.1 = g1.emptyOn (capturedOver g1 player L)
  count_eq : st.2.1 = (capturedOver g1 player L).card
  ko_none : st.2.2 = none → ∀ nb ∈ L, capturesAt g1 player nb →
      (stringOf g1 nb).card ≠ 1
  ko_some : ∀ x, st.2.2 = some x → x ∈ L ∧ capturesAt g1 player x ∧
      stringOf g1 x = {x}

theorem neg_player_ne_empty (hpl : player = BLACK ∨ player = WHITE) :
    -player ≠ EMPTY := by
  rcases hpl with h | h <;> simp [h, BLACK, WHITE, EMPTY]

theorem capturedOver_append_non {L : List Pos} {nb : Pos}
    (hnb : ¬capturesAt g1 player nb) :
    capturedOver g1 player (L ++ [nb]) = capturedOver g1 player L := by
  ext q
  simp only [mem_capturedOver, List.mem_append, List.mem_singleton]
  constructor
  · rintro ⟨hq, a, (ha | rfl), hcap, hmem⟩
    · exact ⟨hq, a, ha, hcap, hmem⟩
    · exact absurd hcap hnb
  · rintro ⟨hq, a, ha, hcap, hmem⟩
    exact ⟨hq, a, Or.inl ha, hcap, hmem⟩

theorem capturedOver_append_mem {L : List Pos} {nb : Pos}
    (hL : ∀ a ∈ L, a ∈ g1.posFinset)
    (hmemE : nb ∈ capturedOver g1 player L) :
    capturedOver g1 player (L ++ [nb]) = capturedOver g1 player L := by
  rw [mem_capturedOver] at hmemE
  obtain ⟨hnbpos, nb', hnb', hcap', hmem'⟩ := hmemE
  have hstr : stringOf g1 nb = stringOf g1 nb' :=
    stringOf_eq_of_mem (hL nb' hnb') hmem'
  ext q
  simp only [mem_capturedOver, List.mem_append, List.mem_singleton]
  constructor
  · rintro ⟨hq, a, (ha | rfl), hcap, hmem⟩
    · exact ⟨hq, a, ha, hcap, hmem⟩
    · exact ⟨hq, nb', hnb', hcap', hstr ▸ hmem⟩
  · rintro ⟨hq, a, ha, hcap, hmem⟩
    exact ⟨hq, a, Or.inl ha, hcap, hmem⟩

theorem capturedOver_append_new {L : List Pos} {nb : Pos}
    (hnbpos : nb ∈ g1.posFinset) (hcap : capturesAt g1 player nb) :
    capturedOver g1 player (L ++ [nb]) =
      capturedOver g1 player L ∪ stringOf g1 nb := by
  ext q
  simp only [mem_capturedOver, Finset.mem_union, List.mem_append,
    List.mem_singleton]
  constructor
  · rintro ⟨hq, a, (ha | rfl), hcapa, hmem⟩
    · exact Or.inl ⟨hq, a, ha, hcapa, hmem⟩
    · exact Or.inr hmem
  · rintro (⟨hq, a, ha, hcapa, hmem⟩ | hmem)
    · exact ⟨hq, a, Or.inl ha, hcapa, hmem⟩
    · exact ⟨stringOf_subset_posFinset hnbpos hmem, nb, Or.inr rfl, hcap, hmem⟩

/-- Stepping the capture loop preserves the invariant. -/
theorem capInv_step (hpl : player = BLACK ∨ player = WHITE) {L : List Pos}
    {nb : Pos} {st : Grid × Nat × Option Pos}
    (hL : ∀ a ∈ L, a ∈ g1.posFinset) (hnbpos : nb ∈ g1.posFinset)
    (h : CapInv g1 player L st) :
    CapInv g1 player (L ++ [nb]) (captureStep player st nb) := by
  have hcE := neg_player_ne_empty hpl
  set E := capturedOver g1 player L with hE
  have hsat : Saturated g1 (-player) E := capturedOver_saturated hL
  by_cases hcol : st.1.colour nb = -player
  · -- opponent stone still on the board at this neighbour
    have hnbE : nb ∉ E := by
      intro hmem
      rw [h.grid_eq] at hcol
      simp only [Grid.emptyOn, ← hE, hmem, if_pos] at hcol
      exact hcE hcol.symm
    have hg1col : g1.colour nb = -player := by
      rw [h.grid_eq] at hcol
      simpa [Grid.emptyOn, ← hE, hnbE] using hcol
    have hstr : stringOf st.1 nb = stringOf g1 nb := by
      rw [h.grid_eq]
      exact stringOf_emptyOn_eq hcE hsat hnbpos hg1col hnbE
    have hlib : libertiesOf st.1 (stringOf st.1 nb) =
        libertiesOf g1 (stringOf g1 nb) := by
      rw [hstr, h.grid_eq]
      exact libertiesOf_emptyOn_eq hcE hsat hnbpos hg1col hnbE
    by_cases hnolib : libertiesOf st.1 (stringOf st.1 nb) = ∅
    · -- a capture fires
      have hcap : capturesAt g1 player nb := ⟨hg1col, by rw [← hlib]; exact hnolib⟩
      have hnew := capturedOver_append_new (L := L) hnbpos hcap
      have hdisj : Disjoint E (stringOf g1 nb) := by
        rw [Finset.disjoint_right]
        intro x hx
        exact stringOf_disjoint_saturated hsat hnbpos hg1col hnbE hx
      have hstep : captureStep player st nb =
          (st.1.emptyOn (stringOf st.1 nb), st.2.1 + (stringOf st.1 nb).card,
            if (stringOf st.1 nb).card = 1 then some nb else st.2.2) := by
        simp [captureStep, hcol, hnolib]
      rw [hstep]
      constructor
      · -- grid
        simp only
        rw [hstr, h.grid_eq, emptyOn_emptyOn, hnew]
      · -- count
        simp only
        rw [hstr, h.count_eq, hnew, Finset.card_union_of_disjoint hdisj]
      · -- ko = none
        intro hko a ha hcapa
        rw [hstr] at hko
        by_cases hcard : (stringOf g1 nb).card = 1
        · simp [hcard] at hko
        · simp only [hcard, if_neg, ite_false] at hko
          rcases List.mem_append.mp ha with ha' | ha'
          · exact h.ko_none hko a ha' hcapa
          · rw [List.mem_singleton] at ha'
            subst ha'
            exact hcard
      · -- ko = some
        intro x hx
        rw [hstr] at hx
        by_cases hcard : (stringOf g1 nb).card = 1
        · simp only [hcard, ite_true, Option.some.injEq] at hx
          subst hx
          refine ⟨List.mem_append.mpr (Or.inr (List.mem_singleton_self _)), hcap, ?_⟩
          obtain ⟨z, hz⟩ := Finset.card_eq_one.mp hcard
          have hself : nb ∈ stringOf g1 nb := self_mem_stringOf hnbpos
          rw [hz, Finset.mem_singleton] at hself
          rw [hz, hself]
        · simp only [hcard, ite_false] at hx
          obtain ⟨ha, hb, hc⟩ := h.ko_some x hx
          exact ⟨List.mem_append.mpr (Or.inl ha), hb, hc⟩
    · -- no capture: the string keeps a liberty, also on the original grid
      have hnocap : ¬capturesAt g1 player nb := by
        intro hcap
        exact hnolib (by rw [hlib]; exact hcap.2)
      have hstep : captureStep player st nb = st := by
        simp [captureStep, hcol, hnolib]
      rw [hstep]
      refine ⟨?_, ?_, ?_, ?_⟩
      · rw [h.grid_eq, capturedOver_append_non hnocap]
      · rw [h.count_eq, capturedOver_append_non hnocap]
      · intro hko a ha hcapa
        rcases List.mem_append.mp ha with ha' | ha'
        · exact h.ko_none hko a ha' hcapa
        · rw [List.mem_singleton] at ha'
          subst ha'
          exact absurd hcapa hnocap
      · intro x hx
        obtain ⟨ha, hb, hc⟩ := h.ko_some x hx
        exact ⟨List.mem_append.mpr (Or.inl ha), hb, hc⟩
  · -- the neighbour is not an opponent stone on the current grid
    have hstep : captureStep player st nb = st := by
      simp [captureStep, hcol]
    rw [hstep]
    by_cases hnbE : nb ∈ E
    · -- already captured: its string was removed earlier in the loop
      have heq := capturedOver_append_mem hL (hE ▸ hnbE)
      have hsingle : (stringOf g1 nb).card ≠ 1 ∨ st.2.2 ≠ none := by
        rw [mem_capturedOver] at hnbE
        obtain ⟨_, nb', hnb', hcap', hmem'⟩ := hnbE
        have hstr : stringOf g1 nb = stringOf g1 nb' :=
          stringOf_eq_of_mem (hL nb' hnb') hmem'
        by_cases hko : st.2.2 = none
        · left
          rw [hstr]
          exact h.ko_none hko nb' hnb' hcap'
        · right; exact hko
      refine ⟨?_, ?_, ?_, ?_⟩
      · rw [h.grid_eq, heq]
      · rw [h.count_eq, heq]
      · intro hko a ha hcapa
        rcases List.mem_append.mp ha with ha' | ha'
        · exact h.ko_none hko a ha' hcapa
        · rw [List.mem_singleton] at ha'
          subst ha'
          rcases hsingle with h' | h'
          · exact h'
          · exact absurd hko h'
      · intro x hx
        obtain ⟨ha, hb, hc⟩ := h.ko_some x hx
        exact ⟨List.mem_append.mpr (Or.inl ha), hb, hc⟩
    · -- never an opponent stone at all
      have hg1 : g1.colour nb ≠ -player := by
        intro hg
        apply hcol
        rw [h.grid_eq]
        simpa [Grid.emptyOn, ← hE, hnbE] using hg
      have hnocap : ¬capturesAt g1 player nb := fun hcap => hg1 hcap.1
      refine ⟨?_, ?_, ?_, ?_⟩
      · rw [h.grid_eq, capturedOver_append_non hnocap]
      · rw [h.count_eq, capturedOver_append_non hnocap]
      · intro hko a ha hcapa
        rcases List.mem_append.mp ha with ha' | ha'
        · exact h.ko_none hko a ha' hcapa
        · rw [List.mem_singleton] at ha'
          subst ha'
          exact absurd hcapa hnocap
      · intro x hx
        obtain ⟨ha, hb, hc⟩ := h.ko_some x hx
        exact ⟨List.mem_append.mpr (Or.inl ha), hb, hc⟩

theorem capInv_fold (hpl : player = BLACK ∨ player = WHITE) :
    ∀ (L acc : List Pos) (st : Grid × Nat × Option Pos),
      (∀ a ∈ L, a ∈ g1.posFinset) → (∀ a ∈ acc, a ∈ g1.posFinset) →
      CapInv g1 player acc st →
      CapInv g1 player (acc ++ L) (L.foldl (captureStep player) st) := by
  intro L
  induction L with
  | nil =>
    intro acc st _ _ h
    simpa using h
  | cons nb L' ih =>
    intro acc st hL hacc h
    have hnb : nb ∈ g1.posFinset := hL nb (List.mem_cons_self _ _)
    have hL' : ∀ a ∈ L', a ∈ g1.posFinset := fun a ha => hL a (List.mem_cons_of_mem _ ha)
    have hacc' : ∀ a ∈ acc ++ [nb], a ∈ g1.posFinset := by
      intro a ha
      rcases List.mem_append.mp ha with h' | h'
      · exact hacc a h'
      · rw [List.mem_singleton] at h'; subst h'; exact hnb
    have hstep := capInv_step hpl hacc hnb h
    have := ih (acc ++ [nb]) _ hL' hacc' hstep
    simpa [List.append_assoc] using this

/-- What the capture loop of `Board.move` computes: the grid with all
captured opponent strings simultaneously removed, the number of captured
stones, and the ko-candidate characterisation. -/
theorem captureFold_spec (hpl : player = BLACK ∨ player = WHITE) (p : Pos) :
    let res := (g1.adjList p).foldl (captureStep player) (g1, 0, none)
    res.1 = g1.emptyOn (capturedSet g1 player p) ∧
    res.2.1 = (capturedSet g1 player p).card ∧
    (res.2.2 = none → ∀ nb ∈ g1.adjList p, capturesAt g1 player nb →
      (stringOf g1 nb).card ≠ 1) ∧
    (∀ x, res.2.2 = some x → x ∈ g1.adjList p ∧ capturesAt g1 player x ∧
      stringOf g1 x = {x}) := by
  intro res
  have hbase : CapInv g1 player [] (g1, 0, none) := by
    refine ⟨?_, ?_, ?_, ?_⟩
    · rw [capturedOver_nil, emptyOn_empty]
    · rw [capturedOver_nil]; simp
    · intro _ a ha; simp at ha
    · intro x hx; simp at hx
  have := capInv_fold hpl (g1.adjList p) [] (g1, 0, none)
    (fun a ha => g1.mem_adjList_posFinset ha) (by simp) hbase
  rw [List.nil_append] at this
  exact ⟨this.grid_eq, this.count_eq, this.ko_none, this.ko_some⟩

end CaptureFold

/-! ## `Board.move`, declaratively -/

/-- The grid after the placement at `(i, j)` with every captured opponent
string removed at once. -/
def postCaptureGrid (b : Board) (player : Int) (i j : Nat) : Grid :=
  (placedGrid b player i j).emptyOn
    (capturedSet (placedGrid b player i j) player (i, j))

/-- The spec's suicide condition: after all opposite-colour captures are
applied, the placed stone's own string has zero liberties. -/
def isSuicide (b : Board) (player : Int) (i j : Nat) : Prop :=
  libertiesOf (postCaptureGrid b player i j)
    (stringOf (postCaptureGrid b player i j) (i, j)) = ∅

section MoveLemmas

variable {b : Board} {player : Int} {i j : Nat}

theorem moveFold_spec (hpl : player = BLACK ∨ player = WHITE) :
    (moveFold b player i j).1 = postCaptureGrid b player i j ∧
    (moveFold b player i j).2.1 =
      (capturedSet (placedGrid b player i j) player (i, j)).card ∧
    ((moveFold b player i j).2.2 = none →
      ∀ nb ∈ (placedGrid b player i j).adjList (i, j),
        capturesAt (placedGrid b player i j) player nb →
        (stringOf (placedGrid b player i j) nb).card ≠ 1) ∧
    (∀ x, (moveFold b player i j).2.2 = some x →
      x ∈ (placedGrid b player i j).adjList (i, j) ∧
      capturesAt (placedGrid b player i j) player x ∧
      stringOf (placedGrid b player i j) x = {x}) :=
  captureFold_spec hpl (i, j)

theorem move_ok_destruct {ignoreKo : Bool} {b' : Board}
    (hok : b.move player i j ignoreKo = .ok b') :
    b.grid.colour (i, j) = EMPTY ∧ ¬(¬ignoreKo ∧ b.ko = some (i, j)) ∧
    libertiesOf (moveFold b player i j).1
      (stringOf (moveFold b player i j).1 (i, j)) ≠ ∅ ∧
    b' = Board.init (moveFold b player i j).1
      (if (moveFold b player i j).2.2 ≠ none ∧
          (stringOf (moveFold b player i j).1 (i, j)).card = 1 ∧
          (libertiesOf (moveFold b player i j).1
            (stringOf (moveFold b player i j).1 (i, j))).card = 1
        then (moveFold b player i j).2.2 else none)
      (if player = BLACK then b.prisB + (moveFold b player i j).2.1 else b.prisB)
      (if player = WHITE then b.prisW + (moveFold b player i j).2.1 else b.prisW)
      0 := by
  unfold Board.move at hok
  by_cases h1 : b.grid.colour (i, j) ≠ EMPTY
  · rw [if_pos h1] at hok
    exact absurd hok (by simp)
  rw [if_neg h1] at hok
  by_cases h2 : ¬ignoreKo ∧ b.ko = some (i, j)
  · rw [if_pos h2] at hok
    exact absurd hok (by simp)
  rw [if_neg h2] at hok
  dsimp only [] at hok
  by_cases h3 : libertiesOf (moveFold b player i j).1
      (stringOf (moveFold b player i j).1 (i, j)) = ∅
  · rw [if_pos h3] at hok
    exact absurd hok (by simp)
  rw [if_neg h3] at hok
  simp only [Except.ok.injEq] at hok
  exact ⟨not_not.mp h1, h2, h3, hok.symm⟩

end MoveLemmas

section Bridge

variable {g : Grid}

theorem adjList_emptyOn (E : Finset Pos) : (g.emptyOn E).adjList = g.adjList := rfl

theorem posFinset_emptyOn (E : Finset Pos) : (g.emptyOn E).posFinset = g.posFinset := rfl

theorem adjList_setColour (p : Pos) (c : Int) :
    (g.setColour p c).adjList = g.adjList := rfl

theorem posFinset_setColour (p : Pos) (c : Int) :
    (g.setColour p c).posFinset = g.posFinset := rfl

theorem mem_stringOf_iff {nb q : Pos} {c : Int} (hnb : nb ∈ g.posFinset)
    (hcol : g.colour nb = c) :
    q ∈ stringOf g nb ↔ Reach g (fun y => decide (g.colour y = c)) nb q := by
  unfold stringOf
  rw [show (fun y => decide (g.colour y = g.colour nb)) =
      (fun y => decide (g.colour y = c)) by funext y; rw [hcol]]
  exact mem_component_iff hnb

theorem stringOf_subset_capturedSet {player : Int} {p nb : Pos}
    (hnb : nb ∈ g.adjList p) (hcap : capturesAt g player nb) :
    stringOf g nb ⊆ capturedSet g player p := by
  intro x hx
  rw [capturedSet, mem_capturedOver]
  exact ⟨stringOf_subset_posFinset (g.mem_adjList_posFinset hnb) hx,
    nb, hnb, hcap, hx⟩

end Bridge

/-! ## Claims C1, C2, C3, C10: `Board.move` and `Board.erase` -/

/-- **C1.** `Board.move` raises `PlacementError` iff the target is
occupied, or (unless `ignore_ko`) the target is the ko point, or the
placed stone's own string has zero liberties after all opposite-colour
captures are applied; `Board.erase` raises iff the target is empty.  In
the embedding both operations are pure functions returning `Except`, so a
failure leaves the source board unchanged by construction. -/
theorem claim1_placement_error_iff (b : Board) (player : Int) (i j : Nat)
    (ignoreKo takePrisoner : Bool) (hpl : player = BLACK ∨ player = WHITE) :
    (b.move player i j ignoreKo = .error () ↔
      b.grid.colour (i, j) ≠ EMPTY ∨ (¬ignoreKo ∧ b.ko = some (i, j)) ∨
      isSuicide b player i j) ∧
    (b.erase i j takePrisoner = .error () ↔ b.grid.colour (i, j) = EMPTY) := by
  have hfold := (moveFold_spec (b := b) (i := i) (j := j) hpl).1
  constructor
  · unfold Board.move
    by_cases h1 : b.grid.colour (i, j) ≠ EMPTY
    · rw [if_pos h1]
      simp [h1]
    rw [if_neg h1]
    by_cases h2 : ¬ignoreKo ∧ b.ko = some (i, j)
    · rw [if_pos h2]
      simp [h1, h2]
    rw [if_neg h2]
    dsimp only []
    by_cases h3 : libertiesOf (moveFold b player i j).1
        (stringOf (moveFold b player i j).1 (i, j)) = ∅
    · rw [if_pos h3]
      rw [hfold] at h3
      simp only [eq_self_iff_true, true_iff]
      exact Or.inr (Or.inr h3)
    · rw [if_neg h3]
      rw [hfold] at h3
      simp only [isSuicide]
      constructor
      · intro h; exact absurd h (by simp)
      · rintro (h | h | h)
        · exact absurd h h1
        · exact absurd h h2
        · exact absurd h h3
  · unfold Board.erase
    by_cases h : b.grid.colour (i, j) = EMPTY
    · rw [if_pos h]
      simp [h]
    · rw [if_neg h]
      simp [h]

/-- **C2.** For every legal placement, `Board.move` removes exactly the
maximal opposite-colour neighbouring strings whose liberty set is empty
once the stone is placed (`capturedSet`, characterised here by graph
reachability through opponent stones), increments the moving player's
prisoner count by the number of stones removed, leaves the opponent's
count unchanged, and changes no other point's colour relative to the
post-placement grid. -/
theorem claim2_capture (b : Board) (player : Int) (i j : Nat)
    (ignoreKo : Bool) (b' : Board) (hpl : player = BLACK ∨ player = WHITE)
    (hok : b.move player i j ignoreKo = .ok b') :
    (∀ q, q ∈ capturedSet (placedGrid b player i j) player (i, j) ↔
      q ∈ (placedGrid b player i j).posFinset ∧
      ∃ nb ∈ (placedGrid b player i j).adjList (i, j),
        (placedGrid b player i j).colour nb = -player ∧
        Reach (placedGrid b player i j)
          (fun y => decide ((placedGrid b player i j).colour y = -player)) nb q ∧
        ∀ x, ¬(x ∈ (placedGrid b player i j).posFinset ∧
          (placedGrid b player i j).colour x = EMPTY ∧
          ∃ r, Reach (placedGrid b player i j)
            (fun y => decide ((placedGrid b player i j).colour y = -player)) nb r ∧
            x ∈ (placedGrid b player i j).adjList r)) ∧
    (∀ q, b'.grid.colour q =
      if q ∈ capturedSet (placedGrid b player i j) player (i, j) then EMPTY
      else (placedGrid b player i j).colour q) ∧
    b'.pris player =
      b.pris player + (capturedSet (placedGrid b player i j) player (i, j)).card ∧
    b'.pris (-player) = b.pris (-player) := by
  obtain ⟨hocc, hko2, hnosuic, hb'⟩ := move_ok_destruct hok
  obtain ⟨hg, hcnt, _, _⟩ := moveFold_spec (b := b) (i := i) (j := j) hpl
  set g1 := placedGrid b player i j with hg1
  refine ⟨?_, ?_, ?_, ?_⟩
  · intro q
    rw [capturedSet, mem_capturedOver]
    constructor
    · rintro ⟨hq, nb, hnb, hcap, hmem⟩
      have hnbpos := g1.mem_adjList_posFinset hnb
      refine ⟨hq, nb, hnb, hcap.1, (mem_stringOf_iff hnbpos hcap.1).mp hmem, ?_⟩
      rintro x ⟨hx, hxe, r, hr, hadj⟩
      have hrmem : r ∈ stringOf g1 nb := (mem_stringOf_iff hnbpos hcap.1).mpr hr
      have hxl : x ∈ libertiesOf g1 (stringOf g1 nb) := by
        rw [libertiesOf, Finset.mem_filter]
        exact ⟨hx, hxe, r, hrmem, hadj⟩
      rw [hcap.2] at hxl
      simp at hxl
    · rintro ⟨hq, nb, hnb, hcol, hreach, hlib⟩
      have hnbpos := g1.mem_adjList_posFinset hnb
      have hmem := (mem_stringOf_iff hnbpos hcol).mpr hreach
      have hlibs : libertiesOf g1 (stringOf g1 nb) = ∅ := by
        rw [Finset.eq_empty_iff_forall_not_mem]
        intro x hx
        rw [libertiesOf, Finset.mem_filter] at hx
        obtain ⟨hxp, hxe, r, hrm, hadj⟩ := hx
        exact hlib x ⟨hxp, hxe, r, (mem_stringOf_iff hnbpos hcol).mp hrm, hadj⟩
      exact ⟨hq, nb, hnb, ⟨hcol, hlibs⟩, hmem⟩
  · intro q
    rw [hb']
    show (moveFold b player i j).1.colour q = _
    rw [hg]
    rfl
  · rw [hb', hcnt]
    rcases hpl with h | h <;> subst h <;>
      simp [Board.init, Board.pris, BLACK, WHITE]
  · rw [hb']
    rcases hpl with h | h <;> subst h <;>
      simp [Board.init, Board.pris, BLACK, WHITE]

/-- **C3.** A board returned by a successful `Board.move` carries a ko
point iff the move captured exactly one stone and the newly placed
stone's string has exactly one stone and exactly one liberty; in that
case the ko point is the coordinate of the single captured stone.  Every
board returned by `Board.erase` has its ko field cleared. -/
theorem claim3_ko (b : Board) (player : Int) (i j : Nat)
    (ignoreKo takePrisoner : Bool) (b' : Board)
    (hpl : player = BLACK ∨ player = WHITE)
    (hi : i < b.grid.m) (hj : j < b.grid.n)
    (hok : b.move player i j ignoreKo = .ok b') :
    (∀ q, b'.ko = some q ↔
      ((capturedSet (placedGrid b player i j) player (i, j)).card = 1 ∧
       (stringOf (postCaptureGrid b player i j) (i, j)).card = 1 ∧
       (libertiesOf (postCaptureGrid b player i j)
         (stringOf (postCaptureGrid b player i j) (i, j))).card = 1 ∧
       capturedSet (placedGrid b player i j) player (i, j) = {q})) ∧
    (∀ k l b'', b.erase k l takePrisoner = .ok b'' → b''.ko = none) := by
  obtain ⟨hocc, hko2, hnosuic, hb'⟩ := move_ok_destruct hok
  obtain ⟨hg, hcnt, hkonone, hkosome⟩ := moveFold_spec (b := b) (i := i) (j := j) hpl
  constructor
  · set g1 := placedGrid b player i j with hg1
    set C := capturedSet g1 player (i, j) with hC
    set g2 := postCaptureGrid b player i j with hg2
    set S := stringOf g2 (i, j) with hS
    have hg2eq : g2 = g1.emptyOn C := rfl
    have hppos : (i, j) ∈ g1.posFinset := Grid.mem_posFinset.mpr ⟨hi, hj⟩
    have hppos2 : (i, j) ∈ g2.posFinset := hppos
    have hko_expr : b'.ko =
        if (moveFold b player i j).2.2 ≠ none ∧ S.card = 1 ∧
            (libertiesOf g2 S).card = 1
          then (moveFold b player i j).2.2 else none := by
      rw [hb']
      show (if (moveFold b player i j).2.2 ≠ none ∧
          (stringOf (moveFold b player i j).1 (i, j)).card = 1 ∧
          (libertiesOf (moveFold b player i j).1
            (stringOf (moveFold b player i j).1 (i, j))).card = 1
        then (moveFold b player i j).2.2 else none) = _
      rw [hg]
    intro q
    constructor
    · intro hq
      rw [hko_expr] at hq
      by_cases hcond : (moveFold b player i j).2.2 ≠ none ∧ S.card = 1 ∧
          (libertiesOf g2 S).card = 1
      swap
      · rw [if_neg hcond] at hq
        exact absurd hq (by simp)
      rw [if_pos hcond] at hq
      obtain ⟨hqadj, hqcap, hqstr⟩ := hkosome q hq
      obtain ⟨_, hS1, hL1⟩ := hcond
      have hqpos := g1.mem_adjList_posFinset hqadj
      have hqC : q ∈ C :=
        stringOf_subset_capturedSet hqadj hqcap (self_mem_stringOf hqpos)
      have hplib : ∀ y, y ∈ g1.adjList (i, j) → y ∈ C →
          y ∈ libertiesOf g2 S := by
        intro y hyadj hyC
        rw [libertiesOf, Finset.mem_filter]
        refine ⟨g1.mem_adjList_posFinset hyadj, ?_, (i, j), ?_, hyadj⟩
        · show g2.colour y = EMPTY
          rw [hg2eq]
          simp [Grid.emptyOn, hyC]
        · exact self_mem_stringOf hppos2
      have hsub : C ⊆ {q} := by
        intro x hx
        rw [hC, capturedSet, mem_capturedOver] at hx
        obtain ⟨hxpos, nb, hnb, hcap, hmem⟩ := hx
        have hnbpos := g1.mem_adjList_posFinset hnb
        have hnbC : nb ∈ C :=
          stringOf_subset_capturedSet hnb hcap (self_mem_stringOf hnbpos)
        have hnlib := hplib nb hnb hnbC
        have hqlib := hplib q hqadj hqC
        obtain ⟨z, hz⟩ := Finset.card_eq_one.mp hL1
        rw [hz, Finset.mem_singleton] at hnlib hqlib
        have hnbq : nb = q := by rw [hnlib, hqlib]
        rw [hnbq, hqstr] at hmem
        exact hmem
      have hCq : C = {q} :=
        Finset.Subset.antisymm hsub (Finset.singleton_subset_iff.mpr hqC)
      refine ⟨by rw [hCq]; simp, hS1, hL1, hCq⟩
    · rintro ⟨hC1, hS1, hL1, hCq⟩
      have hqC : q ∈ C := by
        rw [hCq]
        exact Finset.mem_singleton_self q
      rw [hC, capturedSet, mem_capturedOver] at hqC
      obtain ⟨hqpos, nb, hnb, hcap, hmem⟩ := hqC
      have hnbpos := g1.mem_adjList_posFinset hnb
      have hsub2 : stringOf g1 nb ⊆ {q} := by
        rw [← hCq]
        exact stringOf_subset_capturedSet hnb hcap
      have hnbq : nb = q := Finset.mem_singleton.mp (hsub2 (self_mem_stringOf hnbpos))
      rw [hnbq] at hnb hcap hsub2
      have hqmem : q ∈ stringOf g1 q := self_mem_stringOf hqpos
      have hstrq : stringOf g1 q = {q} :=
        Finset.Subset.antisymm hsub2 (Finset.singleton_subset_iff.mpr hqmem)
      cases hres : (moveFold b player i j).2.2 with
      | none =>
        exact absurd (by rw [hstrq]; simp : (stringOf g1 q).card = 1)
          (hkonone hres q hnb hcap)
      | some x =>
        obtain ⟨hxadj, hxcap, hxstr⟩ := hkosome x hres
        have hxC : x ∈ C := stringOf_subset_capturedSet hxadj hxcap
          (self_mem_stringOf (g1.mem_adjList_posFinset hxadj))
        rw [hCq, Finset.mem_singleton] at hxC
        have hval : b'.ko = some x := by
          rw [hko_expr, hres, if_pos ⟨by simp, hS1, hL1⟩]
        rw [hval, hxC]
  · intro k l b'' hok2
    unfold Board.erase at hok2
    by_cases h : b.grid.colour (k, l) = EMPTY
    · rw [if_pos h] at hok2
      exact absurd hok2 (by simp)
    · rw [if_neg h] at hok2
      simp only [Except.ok.injEq] at hok2
      rw [← hok2]
      rfl

/-- **C10.** Every board returned by a successful `Board.move` or
`Board.erase` has its consecutive-pass counter equal to `0` (both build
the result with `Board.__init__`'s default `passes=0`); only
`pass_turn` increments the counter, by exactly one. -/
theorem claim10_passes_zero (b : Board) (player : Int) (i j k l : Nat)
    (ignoreKo takePrisoner : Bool) :
    (∀ b', b.move player i j ignoreKo = .ok b' → b'.passes = 0) ∧
    (∀ b', b.erase k l takePrisoner = .ok b' → b'.passes = 0) ∧
    (b.passTurn).passes = b.passes + 1 := by
  refine ⟨?_, ?_, rfl⟩
  · intro b' hok
    obtain ⟨_, _, _, hb'⟩ := move_ok_destruct hok
    rw [hb']
    rfl
  · intro b' hok
    unfold Board.erase at hok
    by_cases h : b.grid.colour (k, l) = EMPTY
    · rw [if_pos h] at hok
      exact absurd hok (by simp)
    · rw [if_neg h] at hok
      simp only [Except.ok.injEq] at hok
      rw [← hok]
      rfl

/-! Concrete boards used by the witnesses. -/

/-- 1×1 empty board: any placement is suicide. -/
def wSuicideBoard : Board :=
  Board.init ⟨1, 1, fun _ => EMPTY⟩ none 0 0 0

/-- 1×2 board with a white stone on (0,0): Black captures by playing (0,1). -/
def wCapBoard : Board :=
  Board.init ⟨1, 2, fun p => if p = (0, 0) then WHITE else EMPTY⟩ none 0 0 0

/-- 1×3 board `B W .`: Black at (0,2) captures one stone into a ko. -/
def wKoBoard : Board :=
  Board.init ⟨1, 3, fun p =>
    if p = (0, 0) then BLACK else if p = (0, 1) then WHITE else EMPTY⟩ none 0 0 0

def wCapMoved : Board :=
  match wCapBoard.move BLACK 0 1 false with
  | .ok b' => b'
  | .error _ => wCapBoard

def wKoMoved : Board :=
  match wKoBoard.move BLACK 0 2 false with
  | .ok b' => b'
  | .error _ => wKoBoard

def wErased : Board :=
  match wCapBoard.erase 0 0 false with
  | .ok b' => b'
  | .error _ => wCapBoard

/-- Witness for C1 at a concrete board (the 1×1 suicide). -/
theorem claim1_witness :
    (BLACK = BLACK ∨ BLACK = WHITE) ∧
    ((wSuicideBoard.move BLACK 0 0 false = .error () ↔
      wSuicideBoard.grid.colour (0, 0) ≠ EMPTY ∨
      (¬false ∧ wSuicideBoard.ko = some (0, 0)) ∨
      isSuicide wSuicideBoard BLACK 0 0) ∧
    (wSuicideBoard.erase 0 0 false = .error () ↔
      wSuicideBoard.grid.colour (0, 0) = EMPTY)) :=
  ⟨Or.inl rfl, claim1_placement_error_iff wSuicideBoard BLACK 0 0 false false (Or.inl rfl)⟩

/-- Witness for C2 at a concrete capture. -/
theorem claim2_witness :
    wCapMoved.pris BLACK = wCapBoard.pris BLACK +
      (capturedSet (placedGrid wCapBoard BLACK 0 1) BLACK (0, 1)).card ∧
    wCapMoved.grid.colour (0, 0) =
      (if (0, 0) ∈ capturedSet (placedGrid wCapBoard BLACK 0 1) BLACK (0, 1)
        then EMPTY else (placedGrid wCapBoard BLACK 0 1).colour (0, 0)) :=
  ⟨(claim2_capture wCapBoard BLACK 0 1 false wCapMoved (Or.inl rfl) rfl).2.2.1,
   (claim2_capture wCapBoard BLACK 0 1 false wCapMoved (Or.inl rfl) rfl).2.1 (0, 0)⟩

/-- Witness for C3 at a concrete single-stone ko capture. -/
theorem claim3_witness :
    (capturedSet (placedGrid wKoBoard BLACK 0 2) BLACK (0, 2)).card = 1 ∧
    (stringOf (postCaptureGrid wKoBoard BLACK 0 2) (0, 2)).card = 1 ∧
    (libertiesOf (postCaptureGrid wKoBoard BLACK 0 2)
      (stringOf (postCaptureGrid wKoBoard BLACK 0 2) (0, 2))).card = 1 ∧
    capturedSet (placedGrid wKoBoard BLACK 0 2) BLACK (0, 2) = {(0, 1)} :=
  ((claim3_ko wKoBoard BLACK 0 2 false false wKoMoved (Or.inl rfl)
      (by decide) (by decide) rfl).1 (0, 1)).mp rfl

/-- Witness for C10 at a concrete move and a concrete erasure. -/
theorem claim10_witness : wCapMoved.passes = 0 ∧ wErased.passes = 0 :=
  ⟨(claim10_passes_zero wCapBoard BLACK 0 1 0 0 false false).1 wCapMoved rfl,
   (claim10_passes_zero wCapBoard BLACK 0 1 0 0 false false).2.1 wErased rfl⟩

/-! ## Benson's algorithm (`Grid.uncapturable`)

The enumeration pass builds the player's strings and the enclosed
regions; the vitality relation links them; the `while` loop is a
fixpoint that repeatedly kills strings with fewer than two alive vital
regions (killing their vital regions with them); a final pass downgrades
eyes whose bordering strings died.  State that the Python code keeps on
`String` objects (the `alive` flags, the vitality lists) is made explicit
as index-parallel lists. -/

/-- A player string as enumerated by `uncapturable`: its row-major first
point (`points[0]`), its point set and its liberty set. -/
structure BString where
  start : Pos
  pts : Finset Pos
  libs : Finset Pos

instance : Inhabited BString := ⟨⟨(0, 0), ∅, ∅⟩⟩

/-- An enclosed region: start point, point set, empty points, the small
flag computed by `_region_recursion`, and whether the region was actually
enumerated into the `eyes` candidate list (`isEnum` is false exactly for
regions all of whose empty points carried a dangling `.string`
assignment left by `Point.isolated`, which `uncapturable` then skips). -/
structure BRegion where
  start : Pos
  pts : Finset Pos
  empties : Finset Pos
  small : Bool
  isEnum : Bool

instance : Inhabited BRegion := ⟨⟨(0, 0), ∅, ∅, false, false⟩⟩

/-- Row-major enumeration of the player's maximal strings
(each started at its first unvisited stone). -/
def enumStrings (g : Grid) (player : Int) : List BString :=
  (g.allPos.foldl (fun (st : Finset Pos × List BString) p =>
    if g.colour p = player ∧ p ∉ st.1 then
      (st.1 ∪ stringOf g p,
       st.2 ++ [⟨p, stringOf g p, libertiesOf g (stringOf g p)⟩])
    else st) (∅, [])).2

/-- Row-major enumeration of the regions enclosed by `player` reachable
from empty points.  A region is `isEnum` iff some empty point of it is
not blocked (not carrying a dangling string assignment). -/
def enumRegions (g : Grid) (player : Int) (blocked : Finset Pos) : List BRegion :=
  (g.allPos.foldl (fun (st : Finset Pos × List BRegion) p =>
    if g.colour p = EMPTY ∧ p ∉ st.1 then
      (st.1 ∪ regionEmpties g (regionOf g player p),
       st.2 ++ [⟨p, regionOf g player p,
         regionEmpties g (regionOf g player p),
         regionSmall g player (regionOf g player p),
         decide (∃ e ∈ regionEmpties g (regionOf g player p), e ∉ blocked)⟩])
    else st) (∅, [])).2

/-- `String.vital`: every empty point of the region touches the string. -/
def vital (g : Grid) (player : Int) (R : BRegion) (S : BString) : Bool :=
  decide (∀ e ∈ R.empties, ∃ nb ∈ g.adjList e,
    g.colour nb = player ∧ nb ∈ S.pts)

/-- The region holds at least one liberty of the string. -/
def touches (R : BRegion) (S : BString) : Bool :=
  decide ((R.empties ∩ S.libs).Nonempty)

/-- `string.vitals`: for each string, the indices of the small regions
containing one of its liberties that are vital to it. -/
def sVitals (g : Grid) (player : Int) (strings : List BString)
    (regions : List BRegion) : List (List Nat) :=
  strings.map (fun S => (List.range regions.length).filter (fun l =>
    (regions.getD l default).small ∧ touches (regions.getD l default) S ∧
    vital g player (regions.getD l default) S))

/-- `region.vitals`: for each region, the indices of the strings with a
liberty inside it (recorded only for small regions). -/
def rVitals (strings : List BString) (regions : List BRegion) :
    List (List Nat) :=
  regions.map (fun R => (List.range strings.length).filter (fun k =>
    R.small ∧ touches R (strings.getD k default)))

/-- The body condition of the fixpoint loop: the string is alive but has
fewer than two alive vital regions. -/
def fireCond (sv : List (List Nat)) (aS aR : List Bool) (k : Nat) : Bool :=
  aS.getD k false ∧ ((sv.getD k []).countP (fun l => aR.getD l false)) < 2

/-- Process one string inside a pass of the fixpoint loop: kill it and
its vital regions when `fireCond` holds, recording that a change
happened. -/
def stepK (sv : List (List Nat)) (k : Nat)
    (st : List Bool × List Bool × Bool) : List Bool × List Bool × Bool :=
  if fireCond sv st.1 st.2.1 k then
    (st.1.set k false,
     (sv.getD k []).foldl (fun aR l => aR.set l false) st.2.1, true)
  else st

/-- One pass over the given string indices. -/
def passAux (sv : List (List Nat)) :
    List Nat → (List Bool × List Bool × Bool) → List Bool × List Bool × Bool
  | [], st => st
  | k :: ks, st => passAux sv ks (stepK sv k st)

/-- The `while not end` loop: repeat passes until one changes nothing.
The fuel (number of strings + 1) suffices because every changing pass
kills at least one string. -/
def bensonFix (sv : List (List Nat)) :
    Nat → List Bool × List Bool → List Bool × List Bool
  | 0, st => st
  | fuel + 1, st =>
    let r := passAux sv (List.range sv.length) (st.1, st.2, false)
    if r.2.2 then bensonFix sv fuel (r.1, r.2.1) else (r.1, r.2.1)

/-- The whole outcome of `Grid.uncapturable`. -/
structure BensonOut where
  strings : List BString
  regions : List BRegion
  sv : List (List Nat)
  rv : List (List Nat)
  aliveS : List Bool
  regionFix : List Bool
  regionFinal : List Bool

/-- `Grid.uncapturable(player)`: enumerate, relate, run the fixpoint,
then downgrade eyes whose bordering strings died.  `regionFix` holds the
region flags right after the fixpoint loop, `regionFinal` after the eye
pass. -/
def uncapturable (g : Grid) (player : Int) (blocked : Finset Pos) : BensonOut :=
  let strings := enumStrings g player
  let regions := enumRegions g player blocked
  let sv := sVitals g player strings regions
  let rv := rVitals strings regions
  let fix := bensonFix sv (strings.length + 1)
    (strings.map (fun _ => true), regions.map (fun R => R.small))
  let regionFinal := (List.range regions.length).map (fun l =>
    if (regions.getD l default).isEnum ∧ (regions.getD l default).small then
      fix.2.getD l false && (rv.getD l []).all (fun k => fix.1.getD k false)
    else fix.2.getD l false)
  ⟨strings, regions, sv, rv, fix.1, fix.2, regionFinal⟩

/-- Indices of the returned alive eyes. -/
def bensonEyes (out : BensonOut) : List Nat :=
  (List.range out.regions.length).filter (fun l =>
    (out.regions.getD l default).isEnum ∧ (out.regions.getD l default).small ∧
    out.regionFinal.getD l false)

/-- Indices of the returned not-alive strings with more than one liberty. -/
def bensonUndetermined (out : BensonOut) : List Nat :=
  (List.range out.strings.length).filter (fun k =>
    out.aliveS.getD k false = false ∧
    1 < (out.strings.getD k default).libs.card)

section BensonFixLemmas

variable {sv : List (List Nat)}

theorem foldl_set_false_length (L : List Nat) (aR : List Bool) :
    (L.foldl (fun aR l => aR.set l false) aR).length = aR.length := by
  induction L generalizing aR with
  | nil => rfl
  | cons l L ih => simp [List.foldl_cons, ih, List.length_set]

theorem stepK_length1 (k : Nat) (st : List Bool × List Bool × Bool) :
    (stepK sv k st).1.length = st.1.length := by
  unfold stepK
  split <;> simp [List.length_set]

theorem stepK_length2 (k : Nat) (st : List Bool × List Bool × Bool) :
    (stepK sv k st).2.1.length = st.2.1.length := by
  unfold stepK
  split <;> simp [foldl_set_false_length]

theorem passAux_length1 (ks : List Nat) (st : List Bool × List Bool × Bool) :
    (passAux sv ks st).1.length = st.1.length := by
  induction ks generalizing st with
  | nil => rfl
  | cons k ks ih => rw [passAux, ih, stepK_length1]

theorem passAux_length2 (ks : List Nat) (st : List Bool × List Bool × Bool) :
    (passAux sv ks st).2.1.length = st.2.1.length := by
  induction ks generalizing st with
  | nil => rfl
  | cons k ks ih => rw [passAux, ih, stepK_length2]

theorem stepK_ch_mono {k : Nat} {st : List Bool × List Bool × Bool}
    (h : st.2.2 = true) : (stepK sv k st).2.2 = true := by
  unfold stepK
  split <;> simp [h]

theorem passAux_ch_mono {ks : List Nat} {st : List Bool × List Bool × Bool}
    (h : st.2.2 = true) : (passAux sv ks st).2.2 = true := by
  induction ks generalizing st with
  | nil => exact h
  | cons k ks ih => exact ih (stepK_ch_mono h)

/-- A pass that reports no change leaves the state alone, and no string
fired during it. -/
theorem passAux_no_change {ks : List Nat} {aS aR : List Bool}
    (h : (passAux sv ks (aS, aR, false)).2.2 = false) :
    passAux sv ks (aS, aR, false) = (aS, aR, false) ∧
    ∀ k ∈ ks, fireCond sv aS aR k = false := by
  induction ks with
  | nil => exact ⟨rfl, by simp⟩
  | cons k ks ih =>
    by_cases hf : fireCond sv aS aR k = true
    · exfalso
      have hstep : (stepK sv k (aS, aR, false)).2.2 = true := by
        unfold stepK
        rw [if_pos hf]
      rw [passAux] at h
      rw [passAux_ch_mono hstep] at h
      exact Bool.true_eq_false ▸ h
    · have hf' : fireCond sv aS aR k = false := by
        cases hfc : fireCond sv aS aR k
        · rfl
        · exact absurd hfc hf
      have hstep : stepK sv k (aS, aR, false) = (aS, aR, false) := by
        unfold stepK
        rw [if_neg]
        simp [hf']
      rw [passAux, hstep] at h
      obtain ⟨h1, h2⟩ := ih h
      refine ⟨by rw [passAux, hstep, h1], ?_⟩
      intro k' hk'
      rcases List.mem_cons.mp hk' with rfl | hk'
      · exact hf'
      · exact h2 k' hk'

theorem countP_set_false_le (l : List Bool) (k : Nat) :
    (l.set k false).countP id ≤ l.countP id := by
  induction l generalizing k with
  | nil => simp
  | cons b tl ih =>
    cases k with
    | zero =>
      simp only [List.set_cons_zero, List.countP_cons]
      have := ih 0
      cases b <;> simp
    | succ k =>
      simp only [List.set_cons_succ, List.countP_cons]
      have := ih k
      omega

theorem countP_set_false_lt {l : List Bool} {k : Nat}
    (h : l.getD k false = true) : (l.set k false).countP id < l.countP id := by
  induction l generalizing k with
  | nil => simp [List.getD] at h
  | cons b tl ih =>
    cases k with
    | zero =>
      simp only [List.getD_cons_zero] at h
      subst h
      simp [List.set_cons_zero, List.countP_cons]
    | succ k =>
      simp only [List.getD_cons_succ] at h
      have := ih h
      simp only [List.set_cons_succ, List.countP_cons]
      omega

theorem passAux_countP_le (ks : List Nat) (st : List Bool × List Bool × Bool) :
    (passAux sv ks st).1.countP id ≤ st.1.countP id := by
  induction ks generalizing st with
  | nil => exact le_rfl
  | cons k ks ih =>
    rw [passAux]
    refine (ih _).trans ?_
    unfold stepK
    split
    · exact countP_set_false_le _ _
    · exact le_rfl

/-- A pass that reports a change killed at least one string. -/
theorem passAux_decrease {ks : List Nat} {aS aR : List Bool}
    (h : (passAux sv ks (aS, aR, false)).2.2 = true) :
    (passAux sv ks (aS, aR, false)).1.countP id < aS.countP id := by
  induction ks generalizing aS aR with
  | nil => simp [passAux] at h
  | cons k ks ih =>
    by_cases hf : fireCond sv aS aR k = true
    · have hstep : stepK sv k (aS, aR, false) =
          (aS.set k false,
           (sv.getD k []).foldl (fun aR l => aR.set l false) aR, true) := by
        unfold stepK
        rw [if_pos hf]
      rw [passAux, hstep]
      have halive : aS.getD k false = true := by
        have := of_decide_eq_true (by simpa [fireCond] using hf :
          decide (aS.getD k false = true ∧
            ((sv.getD k []).countP (fun l => aR.getD l false)) < 2) = true)
        exact this.1
      calc (passAux sv ks _).1.countP id
          ≤ (aS.set k false).countP id := passAux_countP_le _ _
        _ < aS.countP id := countP_set_false_lt halive
    · have hf' : fireCond sv aS aR k = false := by
        cases hfc : fireCond sv aS aR k
        · rfl
        · exact absurd hfc hf
      have hstep : stepK sv k (aS, aR, false) = (aS, aR, false) := by
        unfold stepK
        rw [if_neg]
        simp [hf']
      rw [passAux, hstep] at h ⊢
      exact ih h

theorem bensonFix_succ (fuel : Nat) (st : List Bool × List Bool) :
    bensonFix sv (fuel + 1) st =
      if (passAux sv (List.range sv.length) (st.1, st.2, false)).2.2 then
        bensonFix sv fuel
          ((passAux sv (List.range sv.length) (st.1, st.2, false)).1,
           (passAux sv (List.range sv.length) (st.1, st.2, false)).2.1)
      else
        ((passAux sv (List.range sv.length) (st.1, st.2, false)).1,
         (passAux sv (List.range sv.length) (st.1, st.2, false)).2.1) := rfl

theorem bensonFix_length1 : ∀ (fuel : Nat) (st : List Bool × List Bool),
    (bensonFix sv fuel st).1.length = st.1.length := by
  intro fuel
  induction fuel with
  | zero => intro st; rfl
  | succ fuel ih =>
    intro st
    rw [bensonFix_succ]
    split
    · rw [ih]
      exact passAux_length1 _ _
    · exact passAux_length1 _ _

/-- With fuel exceeding the number of alive strings, the loop ends in a
state where no string fires: every alive string has at least two alive
vital regions. -/
theorem bensonFix_postfix : ∀ (fuel : Nat) (st : List Bool × List Bool),
    st.1.countP id < fuel → st.1.length ≤ sv.length →
    ∀ k, fireCond sv (bensonFix sv fuel st).1 (bensonFix sv fuel st).2 k = false := by
  intro fuel
  induction fuel with
  | zero =>
    intro st h
    omega
  | succ fuel ih =>
    intro st h hlen k
    rw [bensonFix_succ]
    cases hch : (passAux sv (List.range sv.length) (st.1, st.2, false)).2.2 with
    | false =>
      obtain ⟨heq, hfire⟩ := passAux_no_change hch
      rw [heq]
      simp only [Bool.false_eq_true, if_false]
      by_cases hk : k ∈ List.range sv.length
      · exact hfire k hk
      · rw [List.mem_range, not_lt] at hk
        have hnone : st.1[k]? = none :=
          List.getElem?_eq_none (le_trans hlen hk)
        simp [fireCond, hnone]
    | true =>
      simp only [eq_self_iff_true, if_true]
      apply ih
      · exact (passAux_decrease hch).trans_le (Nat.le_of_lt_succ h)
      · rw [passAux_length1]
        exact hlen

end BensonFixLemmas

section BensonClaims

theorem countP_map_true {α : Type} (l : List α) :
    (l.map (fun _ => true)).countP id = l.length := by
  induction l with
  | nil => rfl
  | cons a l ih =>
    rw [List.map_cons, List.countP_cons, ih]
    simp

theorem getD_map_range {β : Type} (f : Nat → β) {l n : Nat} (hl : l < n)
    (d : β) : ((List.range n).map f).getD l d = f l := by
  rw [List.getD_eq_getElem?_getD, List.getElem?_map, List.getElem?_range hl]
  rfl

/-- The structural invariant of `uncapturable`'s fixpoint loop, for any
grid, player and blocked set: at the end of the `while` loop, every
string still flagged alive counts at least two vital regions whose flags
survived the loop; and every returned eye lists only surviving strings
as its vital strings. -/
theorem benson_invariant (g : Grid) (player : Int) (blocked : Finset Pos) :
    (∀ k, (uncapturable g player blocked).aliveS.getD k false = true →
      2 ≤ ((uncapturable g player blocked).sv.getD k []).countP
        (fun l => (uncapturable g player blocked).regionFix.getD l false)) ∧
    (∀ l, l ∈ bensonEyes (uncapturable g player blocked) →
      ((uncapturable g player blocked).rv.getD l []).all
        (fun k => (uncapturable g player blocked).aliveS.getD k false) = true) := by
  set strings := enumStrings g player with hstrings
  set regions := enumRegions g player blocked with hregions
  set sv := sVitals g player strings regions with hsv
  set rv := rVitals strings regions with hrv
  have hsl : sv.length = strings.length := by
    rw [hsv, sVitals, List.length_map]
  have hout : uncapturable g player blocked =
      ⟨strings, regions, sv, rv,
        (bensonFix sv (strings.length + 1)
          (strings.map (fun _ => true), regions.map (fun R => R.small))).1,
        (bensonFix sv (strings.length + 1)
          (strings.map (fun _ => true), regions.map (fun R => R.small))).2,
        (List.range regions.length).map (fun l =>
          if (regions.getD l default).isEnum ∧ (regions.getD l default).small
          then (bensonFix sv (strings.length + 1)
              (strings.map (fun _ => true), regions.map (fun R => R.small))).2.getD l false &&
            (rv.getD l []).all (fun k =>
              (bensonFix sv (strings.length + 1)
                (strings.map (fun _ => true), regions.map (fun R => R.small))).1.getD k false)
          else (bensonFix sv (strings.length + 1)
            (strings.map (fun _ => true), regions.map (fun R => R.small))).2.getD l false)⟩ := rfl
  constructor
  · intro k halive
    have hcount : ((strings.map (fun _ => true), regions.map (fun R => R.small)) :
        List Bool × List Bool).1.countP id < strings.length + 1 := by
      simp only [countP_map_true]
      omega
    have hlen : ((strings.map (fun _ => true), regions.map (fun R => R.small)) :
        List Bool × List Bool).1.length ≤ sv.length := by
      simp [hsl]
    have hfire := bensonFix_postfix (strings.length + 1)
      (strings.map (fun _ => true), regions.map (fun R => R.small)) hcount hlen k
    rw [hout] at halive
    simp only at halive
    rw [fireCond] at hfire
    have := of_decide_eq_false hfire
    rw [not_and] at this
    have h2 := this halive
    rw [not_lt] at h2
    rw [hout]
    exact h2
  · intro l hl
    rw [hout] at hl ⊢
    simp only [bensonEyes] at hl
    rw [List.mem_filter] at hl
    obtain ⟨hrange, hcond⟩ := hl
    rw [List.mem_range] at hrange
    simp only [decide_eq_true_eq] at hcond
    obtain ⟨henum, hsmall, hfinal⟩ := hcond
    rw [getD_map_range _ hrange] at hfinal
    rw [if_pos ⟨henum, hsmall⟩] at hfinal
    simp only [Bool.and_eq_true] at hfinal
    exact hfinal.2

end BensonClaims

/-- A 3×6 board (`B . B B B B / . . B . B B / B B B B B B`): the lone
corner stone `t = (0,0)` has no vital region and dies in the fixpoint
loop; the big region `{(0,1), (1,0), (1,1)}` is vital to the surviving
string `s` but also holds a liberty of `t`, so the final eye pass demotes
it after the loop has already certified `s`. -/
def c4rows : List (List Int) :=
  [[1, 0, 1, 1, 1, 1], [0, 0, 1, 0, 1, 1], [1, 1, 1, 1, 1, 1]]

def c4grid : Grid := ⟨3, 6, fun p => (c4rows.getD p.1 []).getD p.2 0⟩

/-- A 2×5 board with one black string owning two one-point eyes. -/
def w4rows : List (List Int) := [[1, 1, 1, 1, 1], [1, 0, 1, 0, 1]]

def w4grid : Grid := ⟨2, 5, fun p => (w4rows.getD p.1 []).getD p.2 0⟩

set_option maxRecDepth 40000 in
/-- Counterexample to C4 as stated: on `c4grid` the string with index 1
(the big string `s`) is classified alive after `uncapturable(BLACK)`
returns, yet only one of its vital regions is still classified alive —
the final eye pass demoted the other one below the claimed bound of 2. -/
theorem claim4_counterexample :
    (uncapturable c4grid BLACK ∅).aliveS.getD 1 false = true ∧
    ((uncapturable c4grid BLACK ∅).sv.getD 1 []).countP
      (fun l => (uncapturable c4grid BLACK ∅).regionFinal.getD l false) = 1 := by
  decide

/-- **C4 (amended).** After `Grid.uncapturable(player)` returns, every
string classified alive has at least 2 vital regions that were still
classified alive at the end of the removal fixpoint loop (the subsequent
eye filter can demote such regions, so the bound need not hold for the
final region classification — see the counterexample); and a returned
eye region is alive only if every string it is vital to survived. -/
theorem claim4_benson_life (g : Grid) (player : Int) (blocked : Finset Pos) :
    (∀ k, (uncapturable g player blocked).aliveS.getD k false = true →
      2 ≤ ((uncapturable g player blocked).sv.getD k []).countP
        (fun l => (uncapturable g player blocked).regionFix.getD l false)) ∧
    (∀ l, l ∈ bensonEyes (uncapturable g player blocked) →
      ((uncapturable g player blocked).rv.getD l []).all
        (fun k => (uncapturable g player blocked).aliveS.getD k false) = true) :=
  benson_invariant g player blocked

set_option maxRecDepth 40000 in
/-- Witness for the amended C4 on a concrete two-eyed alive group. -/
theorem claim4_witness :
    2 ≤ ((uncapturable w4grid BLACK ∅).sv.getD 0 []).countP
      (fun l => (uncapturable w4grid BLACK ∅).regionFix.getD l false) ∧
    ((uncapturable w4grid BLACK ∅).rv.getD 0 []).all
      (fun k => (uncapturable w4grid BLACK ∅).aliveS.getD k false) = true :=
  ⟨(claim4_benson_life w4grid BLACK ∅).1 0 (by decide),
   (claim4_benson_life w4grid BLACK ∅).2 0 (by decide)⟩

/-! ## Values, `Result`, repetition testing -/

/-- The value domain used by `test_repetition` and the `Result` class:
the two infinities and finite values.  (The fractional static-evaluation
bonuses of `evaluate` play no role in the claims below, so finite values
are integers here.) -/
inductive EVal where
  | negInf
  | num (q : Int)
  | posInf
deriving DecidableEq, Repr

def EVal.isinf : EVal → Bool
  | .negInf => true
  | .posInf => true
  | .num _ => false

def EVal.pos : EVal → Bool
  | .posInf => true
  | .num q => decide (0 < q)
  | .negInf => false

def EVal.neg : EVal → EVal
  | .negInf => .posInf
  | .posInf => .negInf
  | .num q => .num (-q)

/-- `colour * value` for the `colour ∈ {1, -1}` used by `negamax`. -/
def EVal.scale (c : Int) (v : EVal) : EVal :=
  if 0 < c then v else if c < 0 then v.neg else .num 0

/-- The data of a `Result` (value, heuristic flag, searched depth).  Its
`children`/`parent` links carry the principal variation and are not
needed by the claims below. -/
structure Result where
  value : EVal
  heuristic : Bool
  depth : Option Nat
deriving DecidableEq, Repr

/-- `Result.__init__` (lines 356-368): the infinities are made absolute
so as to yield valid comparisons — a positive infinity is forced
non-heuristic, a negative one is forced heuristic. -/
def mkResult (value : EVal) (heuristic : Bool) (depth : Option Nat) : Result :=
  if value.isinf then
    if value.pos then ⟨value, false, depth⟩ else ⟨value, true, depth⟩
  else ⟨value, heuristic, depth⟩

/-- The long-cycle resolution value of `test_repetition`: +∞ if Black
gained more prisoners than White since the earlier occurrence, -∞ if
White gained more, 0 otherwise. -/
def repetitionValue (current past : Board) : EVal :=
  if ((current.prisB : Int) - past.prisB) > ((current.prisW : Int) - past.prisW)
  then .posInf
  else if ((current.prisB : Int) - past.prisB) < ((current.prisW : Int) - past.prisW)
  then .negInf
  else .num 0

/-- `Board.test_repetition(history)`: scan `history[:-3]` from the most
recent entry for a board whose layout equals the current (last) board's
layout; report the long-cycle value at the first hit. -/
def testRepetition (history : List Board) : Option EVal :=
  match history.getLast? with
  | none => none
  | some current =>
    if 3 < history.length then
      ((history.take (history.length - 3)).reverse).findSome?
        (fun past => if past.grid.layout = current.grid.layout
          then some (repetitionValue current past) else none)
    else none

/-- Index-directed version of the scan: check indices `m-1, m-2, ..., 0`
of the history and report the first layout hit. -/
def repScanIdx (h : List Board) (cur : Board) : Nat → Option EVal
  | 0 => none
  | m + 1 =>
    if (h.getD m cur).grid.layout = cur.grid.layout
    then some (repetitionValue cur (h.getD m cur))
    else repScanIdx h cur m

theorem findSome_take_eq_repScanIdx (h : List Board) (cur : Board) :
    ∀ m, m ≤ h.length →
      ((h.take m).reverse).findSome?
        (fun past => if past.grid.layout = cur.grid.layout
          then some (repetitionValue cur past) else none) =
      repScanIdx h cur m := by
  intro m
  induction m with
  | zero => intro _; rfl
  | succ m ih =>
    intro hm
    have hmlt : m < h.length := hm
    have htake : h.take (m + 1) = h.take m ++ [h.getD m cur] := by
      rw [List.take_succ]
      congr 1
      rw [List.getElem?_eq_getElem hmlt]
      simp [List.getD_eq_getElem?_getD, List.getElem?_eq_getElem hmlt]
    rw [htake, List.reverse_append, List.reverse_singleton, List.singleton_append,
      List.findSome?_cons]
    rw [repScanIdx]
    by_cases hmatch : (h.getD m cur).grid.layout = cur.grid.layout
    · rw [if_pos hmatch, if_pos hmatch]
    · rw [if_neg hmatch, if_neg hmatch]
      exact ih (Nat.le_of_lt hmlt)

theorem repScanIdx_eq_none_iff (h : List Board) (cur : Board) :
    ∀ m, (repScanIdx h cur m = none ↔
      ∀ i, i < m → (h.getD i cur).grid.layout ≠ cur.grid.layout) := by
  intro m
  induction m with
  | zero => simp [repScanIdx]
  | succ m ih =>
    rw [repScanIdx]
    by_cases hmatch : (h.getD m cur).grid.layout = cur.grid.layout
    · rw [if_pos hmatch]
      simp only [reduceCtorEq, false_iff, not_forall]
      exact ⟨m, Nat.lt_succ_self m, not_not.mpr hmatch⟩
    · rw [if_neg hmatch, ih]
      constructor
      · intro hall i hi
        rcases Nat.lt_succ_iff_lt_or_eq.mp hi with hi | rfl
        · exact hall i hi
        · exact hmatch
      · intro hall i hi
        exact hall i (Nat.lt_succ_of_lt hi)

theorem repScanIdx_first_match (h : List Board) (cur : Board) :
    ∀ m i, i < m → (h.getD i cur).grid.layout = cur.grid.layout →
      (∀ i', i < i' → i' < m →
        (h.getD i' cur).grid.layout ≠ cur.grid.layout) →
      repScanIdx h cur m = some (repetitionValue cur (h.getD i cur)) := by
  intro m
  induction m with
  | zero => intro i hi; omega
  | succ m ih =>
    intro i hi hmatch hafter
    rw [repScanIdx]
    rcases Nat.lt_succ_iff_lt_or_eq.mp hi with hi' | rfl
    · have hne := hafter m hi' (Nat.lt_succ_self m)
      rw [if_neg hne]
      exact ih i hi' hmatch (fun i' h1 h2 => hafter i' h1 (Nat.lt_succ_of_lt h2))
    · rw [if_pos hmatch]

theorem testRepetition_eq (h : List Board) (cur : Board)
    (hlast : h.getLast? = some cur) :
    testRepetition h =
      if 3 < h.length then repScanIdx h cur (h.length - 3) else none := by
  unfold testRepetition
  rw [hlast]
  dsimp only []
  by_cases hlen : 3 < h.length
  · rw [if_pos hlen, if_pos hlen]
    exact findSome_take_eq_repScanIdx h cur (h.length - 3) (by omega)
  · rw [if_neg hlen, if_neg hlen]

theorem testRepetition_value_shape {h : List Board} {r : EVal}
    (hrep : testRepetition h = some r) :
    r = EVal.posInf ∨ r = EVal.negInf ∨ r = EVal.num 0 := by
  unfold testRepetition at hrep
  cases hl : h.getLast? with
  | none => rw [hl] at hrep; exact absurd hrep (by simp)
  | some cur =>
    rw [hl] at hrep
    dsimp only [] at hrep
    by_cases hlen : 3 < h.length
    · rw [if_pos hlen] at hrep
      obtain ⟨past, _, hpast⟩ := List.exists_of_findSome?_eq_some hrep
      by_cases hm : past.grid.layout = cur.grid.layout
      · rw [if_pos hm] at hpast
        simp only [Option.some.injEq] at hpast
        rw [← hpast]
        unfold repetitionValue
        split
        · exact Or.inl rfl
        · split
          · exact Or.inr (Or.inl rfl)
          · exact Or.inr (Or.inr rfl)
      · rw [if_neg hm] at hpast
        exact absurd hpast (by simp)
    · rw [if_neg hlen] at hrep
      exact absurd hrep (by simp)

/-- **C6 (amended).** `Board.test_repetition(history)` compares the
current (last) board's stone layout only against boards at least **3**
plies back (the code slices `history[:-3]`, so a match 3 plies before
the current position is already reported); on the nearest such match it
returns `repetitionValue` (+∞ if Black's prisoner count increased more
than White's since that occurrence, -∞ if White's increased more, 0 when
equal), and it returns `None` when no such match exists. -/
theorem claim6_repetition (h : List Board) (cur : Board)
    (hlast : h.getLast? = some cur) :
    (testRepetition h = none ↔
      ∀ i, i + 3 < h.length → (h.getD i cur).grid.layout ≠ cur.grid.layout) ∧
    (∀ i, i + 3 < h.length →
      (h.getD i cur).grid.layout = cur.grid.layout →
      (∀ i', i < i' → i' + 3 < h.length →
        (h.getD i' cur).grid.layout ≠ cur.grid.layout) →
      testRepetition h = some (repetitionValue cur (h.getD i cur))) := by
  rw [testRepetition_eq h cur hlast]
  by_cases hlen : 3 < h.length
  · rw [if_pos hlen]
    constructor
    · rw [repScanIdx_eq_none_iff]
      constructor
      · intro hall i hi
        exact hall i (by omega)
      · intro hall i hi
        exact hall i (by omega)
    · intro i hi hmatch hafter
      exact repScanIdx_first_match h cur (h.length - 3) i (by omega) hmatch
        (fun i' h1 h2 => hafter i' h1 (by omega))
  · rw [if_neg hlen]
    constructor
    · constructor
      · intro _ i hi
        omega
      · intro _
        rfl
    · intro i hi
      omega

/-- A 1×1 board with the given colour and Black-prisoner count. -/
def c6b (c : Int) (pb : Nat) : Board :=
  Board.init ⟨1, 1, fun _ => c⟩ none pb 0 0

/-- A 4-entry history whose only layout repetition is between its first
and last boards — 3 plies apart. -/
def c6history : List Board := [c6b 0 0, c6b 1 0, c6b (-1) 0, c6b 0 0]

/-- Counterexample to C6 as stated: in `c6history` the only layout match
is 3 plies back (indices 0 and 3), so under the claim (which admits only
matches at least 4 plies back and says `None` otherwise)
`test_repetition` would return `None`; the code reports the repetition
with value 0. -/
theorem claim6_counterexample :
    testRepetition c6history = some (EVal.num 0) ∧
    c6history.length = 4 ∧
    (∀ i j : Fin 4, (i : Nat) < (j : Nat) →
      (c6history.getD i (c6b 0 0)).grid.layout =
        (c6history.getD j (c6b 0 0)).grid.layout →
      (i : Nat) = 0 ∧ (j : Nat) = 3) := by
  decide

/-- Witness for the amended C6 at `c6history`. -/
theorem claim6_witness :
    testRepetition c6history =
      some (repetitionValue (c6b 0 0) (c6history.getD 0 (c6b 0 0))) :=
  (claim6_repetition c6history (c6b 0 0) rfl).2 0 (by decide) (by decide)
    (by
      intro i' h1 h2
      rw [show c6history.length = 4 from rfl] at h2
      omega)

/-! ## The repetition branch of `negamax` (C7) -/

/-- Lines 700-705 of `negamax`: when `test_repetition` reports a
repetition, return `Result(colour*repetition, True)` where `colour` is
+1 for Black to move and -1 for White. -/
def repetitionBranch (history : List Board) (player : Int) : Option Result :=
  match testRepetition history with
  | some r => some (mkResult (EVal.scale (if player = BLACK then 1 else -1) r) true none)
  | none => none

/-- A history repeating the first layout with a Black prisoner gain. -/
def c7history : List Board :=
  [c6b 1 0, c6b 0 0, c6b (-1) 0, c6b 1 1]

/-- Counterexample to C7 as stated: at a node whose history carries a
Black-favouring repetition (value +∞) with Black to move, the returned
`Result` is **not** flagged heuristic — `Result.__init__` normalizes a
positive infinity to exact. -/
theorem claim7_counterexample :
    (repetitionBranch c7history BLACK).map Result.heuristic = some false := by
  decide

/-- **C7 (amended).** Every node at which a repetition is detected
returns `Result(colour*repetition, True)`: its value is +∞, -∞ or 0 (the
sign-adjusted prisoner-advantage value), and it is flagged heuristic
**except** when the sign-adjusted value is +∞, which the `Result`
constructor normalizes to exact (and -∞ is forced heuristic). -/
theorem claim7_repetition_result (history : List Board) (player : Int) :
    ∀ r, testRepetition history = some r →
      repetitionBranch history player =
        some (mkResult (EVal.scale (if player = BLACK then 1 else -1) r) true none) ∧
      (mkResult (EVal.scale (if player = BLACK then 1 else -1) r) true none).value =
        EVal.scale (if player = BLACK then 1 else -1) r ∧
      (mkResult (EVal.scale (if player = BLACK then 1 else -1) r) true none).heuristic =
        decide (EVal.scale (if player = BLACK then 1 else -1) r ≠ EVal.posInf) ∧
      (r = EVal.posInf ∨ r = EVal.negInf ∨ r = EVal.num 0) := by
  intro r hrep
  refine ⟨?_, ?_, ?_, testRepetition_value_shape hrep⟩
  · rw [repetitionBranch, hrep]
  · cases hv : EVal.scale (if player = BLACK then 1 else -1) r <;>
      simp [mkResult, EVal.isinf, EVal.pos]
  · cases hv : EVal.scale (if player = BLACK then 1 else -1) r <;>
      simp [mkResult, EVal.isinf, EVal.pos]

/-- Witness for the amended C7 at `c7history` with Black to move. -/
theorem claim7_witness :
    repetitionBranch c7history BLACK =
      some (mkResult (EVal.scale (if BLACK = BLACK then 1 else -1) EVal.posInf)
        true none) ∧
    (mkResult (EVal.scale (if BLACK = BLACK then 1 else -1) EVal.posInf)
      true none).heuristic =
      decide (EVal.scale (if BLACK = BLACK then 1 else -1) EVal.posInf ≠
        EVal.posInf) :=
  ⟨(claim7_repetition_result c7history BLACK EVal.posInf (by decide)).1,
   (claim7_repetition_result c7history BLACK EVal.posInf (by decide)).2.2.1⟩

/-! ## Killer-move and history-heuristic updates on a beta cutoff (C8) -/

/-- Lines 741-743 of `negamax`: on a cutoff, unless the move is already
one of the two killers for this depth, shift the slot —
`heur_killer[depth] = [heur_killer[depth][1], move]` (two killers, FIFO). -/
def killerUpdate (slot : List (Option Pos)) (move : Option Pos) :
    List (Option Pos) :=
  if move ∈ slot then slot else [slot.getD 1 none, move]

/-- Lines 744-746 of `negamax`: on a cutoff for a non-pass move, bump
the mover's history weight by `depth ** 2`, where `depth` counts from
the root (the root call is `negamax(self, ..., 0)` and children are
searched at `depth + 1`). -/
def historyUpdate (hh : Pos → Nat) (move : Option Pos) (depth : Nat) :
    Pos → Nat :=
  match move with
  | none => hh
  | some m => fun q => if q = m then hh q + depth ^ 2 else hh q

/-- Counterexample to C8 as stated: at a node 1 ply below the root in a
search with depth budget `max_depth = 3` (so 2 plies of budget remain),
a cutoff bumps the history weight by `1² = 1`, not by the claimed square
of the remaining depth `(3-1)² = 4`. -/
theorem claim8_counterexample :
    historyUpdate (fun _ => 0) (some (0, 0)) 1 (0, 0) = 1 ∧
    (1 : Nat) ≠ (3 - 1) ^ 2 := by
  decide

/-- **C8 (amended).** Every beta cutoff on a non-pass move increases
that move's history-heuristic weight by exactly the square of the node's
depth **from the root** (not of the remaining budget), touches no other
weight, leaves the table alone on a pass cutoff, and records the move as
a killer for the node's depth unless it already is one, keeping at most
two killer moves per depth in FIFO order. -/
theorem claim8_cutoff_update (slot : List (Option Pos)) (hh : Pos → Nat)
    (i j : Nat) (depth : Nat) :
    (historyUpdate hh (some (i, j)) depth (i, j) = hh (i, j) + depth ^ 2) ∧
    (∀ q, q ≠ (i, j) → historyUpdate hh (some (i, j)) depth q = hh q) ∧
    (historyUpdate hh none depth = hh) ∧
    (some (i, j) ∉ slot →
      killerUpdate slot (some (i, j)) = [slot.getD 1 none, some (i, j)]) ∧
    (some (i, j) ∈ slot → killerUpdate slot (some (i, j)) = slot) ∧
    (slot.length = 2 → (killerUpdate slot (some (i, j))).length = 2) := by
  refine ⟨by simp [historyUpdate], ?_, rfl, ?_, ?_, ?_⟩
  · intro q hq
    simp [historyUpdate, hq]
  · intro hmem
    simp [killerUpdate, hmem]
  · intro hmem
    simp [killerUpdate, hmem]
  · intro hlen
    unfold killerUpdate
    split
    · exact hlen
    · rfl

/-- Witness for the amended C8 at a concrete cutoff. -/
theorem claim8_witness :
    historyUpdate (fun _ => 0) (some (2, 3)) 2 (2, 3) = (fun _ => (0 : Nat)) (2, 3) + 2 ^ 2 ∧
    killerUpdate [none, none] (some (2, 3)) = [[none, none].getD 1 none, some (2, 3)] ∧
    (killerUpdate [none, none] (some (2, 3))).length = 2 :=
  ⟨(claim8_cutoff_update [none, none] (fun _ => 0) 2 3 2).1,
   (claim8_cutoff_update [none, none] (fun _ => 0) 2 3 2).2.2.2.1 (by decide),
   (claim8_cutoff_update [none, none] (fun _ => 0) 2 3 2).2.2.2.2.2 (by decide)⟩

/-! ## Life, territory and grading (`Board._find_life`, `Board.grade`)

The `alive` flags the Python code stores on `String` objects become an
explicit `Pos → Bool` assignment for stones; all mask/`.string`
mutations are call-local in the source and restored before return, so
the routines are pure functions of the layout (the one deliberate
exception, the dangling `.string` assignments `Point.isolated` can leak
on its *lone-stone* branch, is modelled by the `blocked` parameter of
`uncapturable`).  Point lists the Python code produces in flood-fill order are
normalized to row-major order here; the claims only inspect their
length, colour counts and membership, which the order cannot affect. -/

/-- Whether a stone at `p` belongs to a string `uncapturable` left
flagged alive. -/
def bensonAliveAt (out : BensonOut) (p : Pos) : Bool :=
  (List.range out.strings.length).any (fun k =>
    decide (p ∈ (out.strings.getD k default).pts) && out.aliveS.getD k false)

/-- `Point.dame`: an empty point adjacent to stones of both colours. -/
def pointDame (g : Grid) (p : Pos) : Bool :=
  decide (g.colour p = EMPTY ∧
    (∃ nb ∈ g.adjList p, g.colour nb = BLACK) ∧
    (∃ nb ∈ g.adjList p, g.colour nb = WHITE))

/-- The dame list computed at `_find_life` lines 536-540: empty points
whose stone neighbours are all alive, which have an empty neighbour or
are themselves dame, and whose empty neighbours are all dame. -/
def dameList (g : Grid) (alive : Pos → Bool) : List Pos :=
  g.allPos.filter (fun p =>
    decide (g.colour p = EMPTY) &&
    decide (∀ nb ∈ g.adjList p, g.colour nb ≠ EMPTY → alive nb = true) &&
    (decide (∃ nb ∈ g.adjList p, g.colour nb = EMPTY) || pointDame g p) &&
    decide (∀ nb ∈ g.adjList p, g.colour nb = EMPTY → pointDame g nb = true))

/-- The coordinates of the empty points of the returned alive eyes. -/
def eyePointsOf (out : BensonOut) : Finset Pos :=
  (bensonEyes out).foldl
    (fun acc l => acc ∪ (out.regions.getD l default).empties) ∅

/-- `Point.territory_recursion`'s region: the connected points that are
empty or belong to a dead string, through `p`. -/
def territoryRegion (g : Grid) (alive : Pos → Bool) (p : Pos) : Finset Pos :=
  component g (fun q => decide (g.colour q = EMPTY ∨ alive q = false)) p

/-- `territory_recursion`'s verdict: the region is territory iff no
point of it touches an alive opponent string and some point touches an
alive `player` string. -/
def territoryAlive (g : Grid) (alive : Pos → Bool) (player : Int)
    (R : Finset Pos) : Bool :=
  decide ((∀ x ∈ R, ∀ nb ∈ g.adjList x,
      ¬(g.colour nb = -player ∧ alive nb = true)) ∧
    (∃ x ∈ R, ∃ nb ∈ g.adjList x, g.colour nb = player ∧ alive nb = true))

/-- `Grid.find_territory(player)`: union of the territory regions'
non-`player` points, enumerated from unvisited empty points. -/
def findTerritory (g : Grid) (alive : Pos → Bool) (player : Int) : Finset Pos :=
  (g.allPos.foldl (fun (st : Finset Pos × Finset Pos) p =>
    if g.colour p = EMPTY ∧ p ∉ st.1 then
      (st.1 ∪ territoryRegion g alive p,
       if territoryAlive g alive player (territoryRegion g alive p)
       then st.2 ∪ (territoryRegion g alive p).filter
         (fun q => decide (g.colour q ≠ player))
       else st.2)
    else st) (∅, ∅)).2

/-- The territory as a coordinate list (row-major). -/
def territoryList (g : Grid) (alive : Pos → Bool) (player : Int) : List Pos :=
  g.allPos.filter (fun p => decide (p ∈ findTerritory g alive player))

/-- `Point.isolated` on the grid `g` at the just-placed stone `p`.
Returns the verdict together with the set of empty points on which the
lone-stone branch leaves a dangling `.string` assignment (all processed
regions' empty points except the last region's, which the clean-up loop
resets). -/
def isolatedResult (g : Grid) (p : Pos) : Bool × Finset Pos :=
  let player := g.colour p
  if player = EMPTY then (false, ∅)
  else if ¬∃ nb ∈ g.adjList p, g.colour nb = player then
    -- a lone locally dead stone: count its one-point eye regions
    let res := (g.adjList p).foldl
      (fun (st : Finset Pos × Finset Pos × Nat) nb =>
        if g.colour nb = EMPTY ∧ nb ∉ st.1 then
          (st.1 ∪ regionEmpties g (regionOf g player nb),
           regionEmpties g (regionOf g player nb),
           if (regionEmpties g (regionOf g player nb)).card = 1
           then st.2.2 + 1 else st.2.2)
        else st) (∅, ∅, 0)
    (decide (res.2.2 < 2), res.1 \ res.2.1)
  else
    -- simple string extension
    match (g.adjList p).find? (fun nb => decide (g.colour nb = player)) with
    | none => (false, ∅)
    | some fp =>
      if ∃ nb ∈ g.adjList p, g.colour nb = player ∧
          nb ∉ stringOf (g.setColour p EMPTY) fp then
        -- different strings were connected
        (false, ∅)
      else
        match (g.adjList p).filter (fun nb => decide (g.colour nb ≠ player)) with
        | [] => (true, ∅)
        | o :: rest =>
          -- whether no new small region was created
          (decide ((∀ nb ∈ o :: rest, nb ∈ regionOf g player o) ∧
            regionSmall g player (regionOf g player o) = false), ∅)

/-- The indices of the undetermined strings a miai pass works on. -/
def undetIdx (out : BensonOut) : List Nat := bensonUndetermined out

/-- The candidate points of the miai pass: empty, not an eye point, not
dame. -/
def miaiCandidates (b : Board) (eyePts : Finset Pos) (dame : List Pos) :
    List Pos :=
  b.grid.allPos.filter (fun p =>
    decide (b.grid.colour p = EMPTY) && decide (p ∉ eyePts) &&
    decide (p ∉ dame))

/-- Python truthiness of the tri-state `alive` flag. -/
def triTruthy (t : Option Bool) : Bool := t.getD false

/-- One candidate point of the miai pass: try the move (ignoring ko),
skip isolated placements, re-run `uncapturable` on the new grid (with
the empty points polluted by `isolated` blocked from starting regions),
and promote each still-undetermined string whose representative came out
alive: `False → None → True`. -/
def miaiStep (b : Board) (player : Int) (out : BensonOut)
    (flags : List (Option Bool)) (p : Pos) : List (Option Bool) :=
  match b.move player p.1 p.2 true with
  | .error _ => flags
  | .ok nb =>
    if (isolatedResult nb.grid p).1 then flags
    else
      (List.range flags.length).foldl (fun fl k =>
        if triTruthy (fl.getD k (some false)) then fl
        else
          if bensonAliveAt (uncapturable nb.grid player (isolatedResult nb.grid p).2)
              ((out.strings.getD ((undetIdx out).getD k 0) default).start)
          then fl.set k
            (if fl.getD k (some false) = none then some true else none)
          else fl) flags

/-- The full miai pass for one player: fold the candidates over the
undetermined strings' flags (all starting at `False`), then turn the
remaining `None` candidates into `False`. -/
def miaiPass (b : Board) (player : Int) (out : BensonOut)
    (eyePts : Finset Pos) (dame : List Pos) : List (Option Bool) :=
  (((miaiCandidates b eyePts dame).foldl (miaiStep b player out)
    ((undetIdx out).map (fun _ => some false)))).map
    (fun t => if t = none then some false else t)

/-- Stone aliveness after the miai pass: the original `uncapturable`
verdict, or a promoted undetermined string. -/
def miaiAliveAt (out : BensonOut) (flags : List (Option Bool)) (p : Pos) :
    Bool :=
  bensonAliveAt out p ||
  (List.range flags.length).any (fun k =>
    decide (p ∈ (out.strings.getD ((undetIdx out).getD k 0) default).pts) &&
    triTruthy (flags.getD k (some false)))

/-- `Board._find_life(fast)`: run `uncapturable` for both players,
compute the dame, and unless `fast` run the miai pass for each player.
Returns the per-stone aliveness used by territory search plus the dame
list. -/
def findLife (b : Board) (fast : Bool) : (Pos → Bool) × List Pos :=
  let outB := uncapturable b.grid BLACK ∅
  let outW := uncapturable b.grid WHITE ∅
  let preAlive : Pos → Bool := fun p =>
    if b.grid.colour p = BLACK then bensonAliveAt outB p
    else if b.grid.colour p = WHITE then bensonAliveAt outW p
    else false
  let dame := dameList b.grid preAlive
  if fast then (preAlive, dame)
  else
    let eyePts := eyePointsOf outB ∪ eyePointsOf outW
    let flagsB := miaiPass b BLACK outB eyePts dame
    let flagsW := miaiPass b WHITE outW eyePts dame
    (fun p =>
      if b.grid.colour p = BLACK then miaiAliveAt outB flagsB p
      else if b.grid.colour p = WHITE then miaiAliveAt outW flagsW p
      else false, dame)

/-- `Board.grade(fast)`: territories, scores and undecided points.
`score[player] = len(territory[player]) + placed_prisoners[player] +
self.prisoners[player]` where the placed prisoners count the
opposite-colour points inside the territory list. -/
def Board.grade (b : Board) (fast : Bool) : Board :=
  { b with
    territoryB := territoryList b.grid (findLife b fast).1 BLACK,
    territoryW := territoryList b.grid (findLife b fast).1 WHITE,
    scoreB := (territoryList b.grid (findLife b fast).1 BLACK).length +
      (territoryList b.grid (findLife b fast).1 BLACK).countP
        (fun p => decide (b.grid.colour p = -BLACK)) + b.prisB,
    scoreW := (territoryList b.grid (findLife b fast).1 WHITE).length +
      (territoryList b.grid (findLife b fast).1 WHITE).countP
        (fun p => decide (b.grid.colour p = -WHITE)) + b.prisW,
    undecided := b.grid.allPos.filter (fun p =>
      decide (b.grid.colour p = EMPTY) &&
      decide (p ∉ (findLife b fast).2) &&
      decide (p ∉ territoryList b.grid (findLife b fast).1 BLACK ++
        territoryList b.grid (findLife b fast).1 WHITE)) }

/-- **C5.** After `grade`, each player's score equals the number of
that player's territory points, plus the number of opposing-colour
points lying inside that territory, plus the player's cumulative
prisoner count stored on the board (the opposing stones inside the
territory are counted both as territory points and as placed
prisoners, exactly as `Board.grade` lines 577-582 compute). -/
theorem claim5_score (b : Board) (fast : Bool) :
    (b.grade fast).scoreB = (b.grade fast).territoryB.length +
      (b.grade fast).territoryB.countP
        (fun p => decide (b.grid.colour p = WHITE)) + b.prisB ∧
    (b.grade fast).scoreW = (b.grade fast).territoryW.length +
      (b.grade fast).territoryW.countP
        (fun p => decide (b.grid.colour p = BLACK)) + b.prisW :=
  ⟨rfl, rfl⟩

/-- **C9.** Grading is idempotent: calling `grade` twice in succession
with the same `fast` flag yields the same territory sets, the same
undecided-point list and the same scores as calling it once, and leaves
the grid's colours unchanged (the `active` visitation mask, which every
routine of the source restores before returning, is call-local in this
embedding and hence unchanged by construction).  In the embedding
`grade` is a pure function of the layout, the ko point and the prisoner
counts, all of which it preserves, so the second run recomputes
identical values. -/
theorem claim9_grade_idempotent (b : Board) (fast : Bool) :
    ((b.grade fast).grade fast).territoryB = (b.grade fast).territoryB ∧
    ((b.grade fast).grade fast).territoryW = (b.grade fast).territoryW ∧
    ((b.grade fast).grade fast).undecided = (b.grade fast).undecided ∧
    ((b.grade fast).grade fast).scoreB = (b.grade fast).scoreB ∧
    ((b.grade fast).grade fast).scoreW = (b.grade fast).scoreW ∧
    (b.grade fast).grid = b.grid ∧
    (b.grade fast).grid.layout = b.grid.layout ∧
    (b.grade fast).ko = b.ko ∧
    (b.grade fast).prisB = b.prisB ∧ (b.grade fast).prisW = b.prisW :=
  ⟨rfl, rfl, rfl, rfl, rfl, rfl, rfl, rfl, rfl, rfl⟩

end GoApp
